import Mathlib

set_option maxHeartbeats 1000000

/-!
Verification development for the Obsidian task watcher script (`main.py`).

The script scans Markdown note files for unchecked task lines carrying
embedded due-date/time metadata, and sends a Gotify notification exactly
once per task when its due moment has passed, recording delivered task
identities in a SQLite-backed ledger.

Shallow embedding conventions:
* Python `str` values are modelled as `List Char` (sequences of Unicode
  code points), named `Str` below.
* The specialized regular expressions of the script (`DATE_REGEX`,
  `TIME_REGEX`, `TAG_REGEX`, `TASK_MARKER_REGEX`) are embedded as
  deterministic scanners that reproduce Python `re` semantics on these
  patterns (leftmost match, greedy quantifiers; greediness is
  deterministic here because every quantified class is disjoint from the
  character that follows it).
* Wall-clock instants are modelled at minute granularity in the single
  configured timezone, treated as a fixed-offset zone, so comparison of
  two localized datetimes coincides with lexicographic comparison of
  their wall-clock fields.  Python compares `datetime` values down to
  microseconds, but every due instant built by the script has
  seconds = microseconds = 0, so the minute-granularity comparison is
  equivalent.
* Fallible operations (SQLite access, HTTP delivery) are modelled by
  explicit outcome parameters/oracles.
-/

namespace OTG

/-- Python strings as lists of Unicode code points. -/
abbrev Str := List Char

/-- Convert a Lean string literal to the `Str` model. -/
def strL (s : String) : Str := s.toList

/-- Python regex class `\s` (whitespace), restricted to the ASCII
whitespace characters, which are the only whitespace characters relevant
to the note format. -/
def isWS (c : Char) : Bool :=
  c = ' ' || c = '\t' || c = '\n' || c = '\r' || c = '\x0b' || c = '\x0c'

/-- Python regex class `\d` (decimal digit), ASCII digits. -/
def isDigitC (c : Char) : Bool := '0' ≤ c && c ≤ '9'

/-- Python `str.lstrip()` (whitespace variant). -/
def lstrip (s : Str) : Str := s.dropWhile isWS

/-- Python `str.rstrip()` (whitespace variant). -/
def rstrip (s : Str) : Str := ((s.reverse).dropWhile isWS).reverse

/-- Python `str.strip()` (whitespace variant). -/
def pstrip (s : Str) : Str := rstrip (lstrip s)

/-- Python `sep.join(parts)`. -/
def joinSep (sep : Str) : List Str → Str
  | [] => []
  | [s] => s
  | s :: ss => s ++ sep ++ joinSep sep ss

/-- Python `" ".join(parts)`. -/
def joinSpace : List Str → Str := joinSep [' ']

theorem dropWhile_len_le (p : Char → Bool) (l : Str) : (l.dropWhile p).length ≤ l.length := by
  induction l with
  | nil => simp [List.dropWhile]
  | cons c cs ih =>
    by_cases h : p c
    · simp only [List.dropWhile_cons, h, if_true, List.length_cons]
      omega
    · simp [List.dropWhile_cons, h]

/-- Python `str.split()` (split on whitespace runs, dropping empties),
with structural fuel so that the kernel can evaluate it; the wrapper
`wsplit` supplies sufficient fuel. -/
def wsplitF : Nat → Str → List Str
  | _, [] => []
  | 0, _ => []
  | f + 1, c :: cs =>
    if isWS c then wsplitF f cs
    else (c :: cs.takeWhile (fun x => !isWS x)) :: wsplitF f (cs.dropWhile (fun x => !isWS x))

/-- Python `str.split()` (split on whitespace runs, dropping empties). -/
def wsplit (s : Str) : List Str := wsplitF s.length s

theorem wsplitF_congr : ∀ (f g : Nat) (s : Str), s.length ≤ f → s.length ≤ g →
    wsplitF f s = wsplitF g s := by
  intro f
  induction f with
  | zero =>
    intro g s hf hg
    have : s = [] := List.length_eq_zero.mp (Nat.le_zero.mp hf)
    subst this
    cases g <;> rfl
  | succ f ih =>
    intro g s hf hg
    cases s with
    | nil => cases g <;> rfl
    | cons c cs =>
      cases g with
      | zero => simp at hg
      | succ g =>
        simp only [wsplitF]
        by_cases hws : isWS c = true
        · rw [if_pos hws, if_pos hws]
          exact ih g cs (by simp at hf; omega) (by simp at hg; omega)
        · rw [if_neg hws, if_neg hws]
          have hd := dropWhile_len_le (fun x => !isWS x) cs
          rw [ih g (cs.dropWhile (fun x => !isWS x)) (by simp at hf; omega)
            (by simp at hg; omega)]

theorem wsplit_cons_ws (c : Char) (cs : Str) (h : isWS c = true) :
    wsplit (c :: cs) = wsplit cs := by
  unfold wsplit
  simp only [List.length_cons, wsplitF]
  rw [if_pos h]

theorem wsplit_cons_nws (c : Char) (cs : Str) (h : ¬isWS c = true) :
    wsplit (c :: cs) =
      (c :: cs.takeWhile (fun x => !isWS x)) :: wsplit (cs.dropWhile (fun x => !isWS x)) := by
  unfold wsplit
  simp only [List.length_cons, wsplitF]
  rw [if_neg h]
  rw [wsplitF_congr cs.length (cs.dropWhile (fun x => !isWS x)).length
    (cs.dropWhile (fun x => !isWS x)) (dropWhile_len_le _ _) (Nat.le_refl _)]

/-- Matcher for `TASK_MARKER_REGEX = re.compile(r"^\s*-\s*\[\s*\]\s*")`:
on success, returns the remainder of the line after the (greedy) match.
Greediness is deterministic because `\s` matches none of `-`, `[`, `]`. -/
def markerRest (l : Str) : Option Str :=
  match l.dropWhile isWS with
  | '-' :: r1 =>
    match r1.dropWhile isWS with
    | '[' :: r2 =>
      match r2.dropWhile isWS with
      | ']' :: r3 => some (r3.dropWhile isWS)
      | _ => none
    | _ => none
  | _ => none

/-- Shape of the `DATE_REGEX` capture group: `\d{4}-\d{2}-\d{2}`. -/
def dateShapeB : Str → Bool
  | [a, b, c, d, e, f, g, h, i, j] =>
    isDigitC a && isDigitC b && isDigitC c && isDigitC d && e = '-' &&
    isDigitC f && isDigitC g && h = '-' && isDigitC i && isDigitC j
  | _ => false

/-- Shape of the `TIME_REGEX` capture group: `\d{2}:\d{2}`. -/
def timeShapeB : Str → Bool
  | [a, b, c, d, e] => isDigitC a && isDigitC b && c = ':' && isDigitC d && isDigitC e
  | _ => false

/-- Matcher implementing `re.search` for a pattern of the form `mk\s*(GROUP)` where `GROUP` is a
fixed-width shape of `n` characters starting with a digit: returns
`(whole match, captured group)` for the leftmost match.  A match can only
start at an occurrence of `mk`, and the greedy `\s*` never needs
backtracking because a digit is not whitespace. -/
def searchTok (mk : Char) (shape : Str → Bool) (n : Nat) : Str → Option (Str × Str)
  | [] => none
  | c :: cs =>
    if c = mk then
      let cand := (cs.dropWhile isWS).take n
      if shape cand then some (c :: (cs.takeWhile isWS ++ cand), cand)
      else searchTok mk shape n cs
    else searchTok mk shape n cs

/-- Search of `DATE_REGEX`: `📅\s*(\d{4}-\d{2}-\d{2})`. -/
def dateSearch (s : Str) : Option (Str × Str) := searchTok '📅' dateShapeB 10 s

/-- Search of `TIME_REGEX`: `⏰\s*(\d{2}:\d{2})`. -/
def timeSearch (s : Str) : Option (Str × Str) := searchTok '⏰' timeShapeB 5 s

/-- Fueled core of `removeAll`; the wrapper supplies sufficient fuel. -/
def removeAllF (p : Str) : Nat → Str → Str
  | _, [] => []
  | 0, s => s
  | f + 1, c :: cs =>
    if p ≠ [] ∧ p.isPrefixOf (c :: cs) then removeAllF p f ((c :: cs).drop p.length)
    else c :: removeAllF p f cs

/-- Python `s.replace(p, "")` for a nonempty pattern `p`: removes all
non-overlapping occurrences, scanning left to right.  (For `p = []` it
returns `s` unchanged; the script only ever replaces nonempty matches.) -/
def removeAll (p : Str) (s : Str) : Str := removeAllF p s.length s

theorem removeAllF_congr (p : Str) : ∀ (f g : Nat) (s : Str), s.length ≤ f →
    s.length ≤ g → removeAllF p f s = removeAllF p g s := by
  intro f
  induction f with
  | zero =>
    intro g s hf hg
    have : s = [] := List.length_eq_zero.mp (Nat.le_zero.mp hf)
    subst this
    cases g <;> rfl
  | succ f ih =>
    intro g s hf hg
    cases s with
    | nil => cases g <;> rfl
    | cons c cs =>
      cases g with
      | zero => simp at hg
      | succ g =>
        simp only [removeAllF]
        by_cases hp : p ≠ [] ∧ p.isPrefixOf (c :: cs)
        · rw [if_pos hp, if_pos hp]
          have hlp : 0 < p.length := List.length_pos.mpr hp.1
          exact ih g ((c :: cs).drop p.length)
            (by simp only [List.length_drop, List.length_cons]; simp at hf; omega)
            (by simp only [List.length_drop, List.length_cons]; simp at hg; omega)
        · rw [if_neg hp, if_neg hp]
          rw [ih g cs (by simp at hf; omega) (by simp at hg; omega)]

theorem removeAll_nil (p : Str) : removeAll p [] = [] := rfl

theorem removeAll_cons_pos (p : Str) (c : Char) (cs : Str)
    (h : p ≠ [] ∧ p.isPrefixOf (c :: cs)) :
    removeAll p (c :: cs) = removeAll p ((c :: cs).drop p.length) := by
  unfold removeAll
  simp only [List.length_cons, removeAllF]
  rw [if_pos h]
  have hlp : 0 < p.length := List.length_pos.mpr h.1
  exact removeAllF_congr p cs.length ((c :: cs).drop p.length).length ((c :: cs).drop p.length)
    (by simp only [List.length_drop, List.length_cons]; omega) (Nat.le_refl _)

theorem removeAll_cons_neg (p : Str) (c : Char) (cs : Str)
    (h : ¬(p ≠ [] ∧ p.isPrefixOf (c :: cs))) :
    removeAll p (c :: cs) = c :: removeAll p cs := by
  unfold removeAll
  simp only [List.length_cons, removeAllF]
  rw [if_neg h]

/-- One pass implementing both `TAG_REGEX.findall` and
`TAG_REGEX.sub("", ·)` for `TAG_REGEX = (#\S+)`: returns the list of
matches (in order) and the string with the matches removed.  At a `#`,
the greedy `\S+` takes the maximal nonempty run of non-whitespace; if
that run is empty there is no match at this position and scanning
resumes at the next character. -/
def tagScanF : Nat → Str → List Str × Str
  | _, [] => ([], [])
  | 0, _ => ([], [])
  | f + 1, c :: cs =>
    if c = '#' then
      let t := cs.takeWhile (fun x => !isWS x)
      if t = [] then
        let r := tagScanF f cs
        (r.1, c :: r.2)
      else
        let r := tagScanF f (cs.dropWhile (fun x => !isWS x))
        (('#' :: t) :: r.1, r.2)
    else
      let r := tagScanF f cs
      (r.1, c :: r.2)

/-- The simultaneous `findall`/`sub` scan with sufficient fuel. -/
def tagScan (s : Str) : List Str × Str := tagScanF s.length s

theorem tagScanF_congr : ∀ (f g : Nat) (s : Str), s.length ≤ f → s.length ≤ g →
    tagScanF f s = tagScanF g s := by
  intro f
  induction f with
  | zero =>
    intro g s hf hg
    have : s = [] := List.length_eq_zero.mp (Nat.le_zero.mp hf)
    subst this
    cases g <;> rfl
  | succ f ih =>
    intro g s hf hg
    cases s with
    | nil => cases g <;> rfl
    | cons c cs =>
      cases g with
      | zero => simp at hg
      | succ g =>
        simp only [tagScanF]
        by_cases hc : c = '#'
        · rw [if_pos hc, if_pos hc]
          by_cases ht : cs.takeWhile (fun x => !isWS x) = []
          · simp only [ht, if_true]
            rw [ih g cs (by simp at hf; omega) (by simp at hg; omega)]
          · rw [if_neg ht, if_neg ht]
            have hd := dropWhile_len_le (fun x => !isWS x) cs
            rw [ih g (cs.dropWhile (fun x => !isWS x)) (by simp at hf; omega)
              (by simp at hg; omega)]
        · rw [if_neg hc, if_neg hc]
          rw [ih g cs (by simp at hf; omega) (by simp at hg; omega)]

theorem tagScan_cons_hash_fail (cs : Str) (ht : cs.takeWhile (fun x => !isWS x) = []) :
    tagScan ('#' :: cs) = ((tagScan cs).1, '#' :: (tagScan cs).2) := by
  unfold tagScan
  simp only [List.length_cons, tagScanF, ht, if_true]

theorem tagScan_cons_hash_hit (cs : Str) (ht : ¬cs.takeWhile (fun x => !isWS x) = []) :
    tagScan ('#' :: cs) =
      (('#' :: cs.takeWhile (fun x => !isWS x)) :: (tagScan (cs.dropWhile (fun x => !isWS x))).1,
        (tagScan (cs.dropWhile (fun x => !isWS x))).2) := by
  unfold tagScan
  simp only [List.length_cons, tagScanF, if_true]
  rw [if_neg ht]
  rw [tagScanF_congr cs.length (cs.dropWhile (fun x => !isWS x)).length
    (cs.dropWhile (fun x => !isWS x)) (dropWhile_len_le _ _) (Nat.le_refl _)]

theorem tagScan_cons_other (c : Char) (cs : Str) (hc : ¬c = '#') :
    tagScan (c :: cs) = ((tagScan cs).1, c :: (tagScan cs).2) := by
  unfold tagScan
  simp only [List.length_cons, tagScanF]
  rw [if_neg hc]

/-- The dictionary returned by `parse_task_line`. -/
structure ParsedTask where
  text : Str
  date : Option Str
  time : Option Str
  tags : List Str
deriving DecidableEq, Repr

/-- Function `parse_task_line` from `main.py`:
* reject lines not matching `TASK_MARKER_REGEX`;
* `original_text = TASK_MARKER_REGEX.sub(" ", line).strip()` — the regex
  is anchored at the start of the string, so exactly the leading match is
  replaced by a single space;
* search `original_text` for the first date and time tokens;
* remove all occurrences of the full date and time match strings;
* collect tags and remove them; strip and collapse whitespace. -/
def parse_task_line (line : Str) : Option ParsedTask :=
  match markerRest line with
  | none => none
  | some rest =>
    let original_text := pstrip (' ' :: rest)
    let dm := dateSearch original_text
    let tm := timeSearch original_text
    let date_str := dm.map Prod.snd
    let time_str := tm.map Prod.snd
    let ct1 := match dm with | some g => removeAll g.1 original_text | none => original_text
    let ct2 := match tm with | some g => removeAll g.1 ct1 | none => ct1
    let scan := tagScan ct2
    let clean_text := joinSpace (wsplit (pstrip scan.2))
    some ⟨clean_text, date_str, time_str, scan.1⟩

/-! ## Task identity: `generate_task_id` (SHA-1 hex digest)

`generate_task_id(file_path, task_text)` returns
`hashlib.sha1(f"{file_path}:{task_text}".encode("utf-8")).hexdigest()`.
SHA-1 is implemented below over byte lists (`Nat` values `< 256`),
following FIPS 180-4. -/

/-- UTF-8 encoding of one code point. -/
def utf8Bytes (c : Char) : List Nat :=
  let n := c.toNat
  if n < 0x80 then [n]
  else if n < 0x800 then [0xC0 + n / 0x40, 0x80 + n % 0x40]
  else if n < 0x10000 then
    [0xE0 + n / 0x1000, 0x80 + (n / 0x40) % 0x40, 0x80 + n % 0x40]
  else
    [0xF0 + n / 0x40000, 0x80 + (n / 0x1000) % 0x40, 0x80 + (n / 0x40) % 0x40, 0x80 + n % 0x40]

/-- Python `str.encode("utf-8")`. -/
def utf8Encode (s : Str) : List Nat := (s.map utf8Bytes).flatten

/-- The constant `2^32`, the modulus for 32-bit words. -/
def M32 : Nat := 4294967296

/-- Rotate a 32-bit word (a `Nat < 2^32`) left by `k` bits. -/
def rotl (k x : Nat) : Nat := (x * 2 ^ k + x / 2 ^ (32 - k)) % M32

/-- SHA-1 round function. -/
def sha1F (i b c d : Nat) : Nat :=
  if i < 20 then Nat.lor (Nat.land b c) (Nat.land (Nat.xor b 4294967295) d)
  else if i < 40 then Nat.xor (Nat.xor b c) d
  else if i < 60 then Nat.lor (Nat.lor (Nat.land b c) (Nat.land b d)) (Nat.land c d)
  else Nat.xor (Nat.xor b c) d

/-- SHA-1 round constants. -/
def sha1K (i : Nat) : Nat :=
  if i < 20 then 0x5A827999
  else if i < 40 then 0x6ED9EBA1
  else if i < 60 then 0x8F1BBCDC
  else 0xCA62C1D6

/-- SHA-1 message padding: append `0x80`, zero bytes to reach 56 mod 64,
then the bit length as 8 big-endian bytes. -/
def sha1Pad (msg : List Nat) : List Nat :=
  let l := msg.length
  let z := (119 - l % 64) % 64
  msg ++ 0x80 :: List.replicate z 0 ++
    ((List.range 8).map (fun i => (l * 8) / 2 ^ (8 * (7 - i)) % 256))

/-- Group bytes into big-endian 32-bit words. -/
def toWords : List Nat → List Nat
  | a :: b :: c :: d :: rest => (a * 0x1000000 + b * 0x10000 + c * 0x100 + d) :: toWords rest
  | _ => []

/-- Split a list into chunks of 16 words. -/
def chunks16F : Nat → List Nat → List (List Nat)
  | _, [] => []
  | 0, _ => []
  | f + 1, a :: rest => (a :: rest).take 16 :: chunks16F f ((a :: rest).drop 16)

/-- Split a list into chunks of 16 words (with sufficient fuel). -/
def chunks16 (ws : List Nat) : List (List Nat) := chunks16F ws.length ws

/-- Extend 16 schedule words to 80: `last16` holds the most recent 16
words, newest first; `k` counts the remaining words to produce. -/
def sha1Sched (k : Nat) (last16 : List Nat) (out : List Nat) : List Nat :=
  match k with
  | 0 => out.reverse
  | k' + 1 =>
    let wi := rotl 1 (Nat.xor (Nat.xor (last16.getD 2 0) (last16.getD 7 0))
      (Nat.xor (last16.getD 13 0) (last16.getD 15 0)))
    sha1Sched k' (wi :: last16.take 15) (wi :: out)

/-- One SHA-1 round on the state `(a, b, c, d, e)` with round index and
schedule word `(i, w)`. -/
def sha1Round (st : Nat × Nat × Nat × Nat × Nat) (iw : Nat × Nat) :
    Nat × Nat × Nat × Nat × Nat :=
  let t := (rotl 5 st.1 + sha1F iw.1 st.2.1 st.2.2.1 st.2.2.2.1 + st.2.2.2.2 +
    sha1K iw.1 + iw.2) % M32
  (t, st.1, rotl 30 st.2.1, st.2.2.1, st.2.2.2.1)

/-- Process one 512-bit chunk. -/
def sha1Chunk (h : Nat × Nat × Nat × Nat × Nat) (chunk : List Nat) :
    Nat × Nat × Nat × Nat × Nat :=
  let ws := chunk ++ sha1Sched 64 chunk.reverse []
  let iws := (List.range 80).zip ws
  let f := iws.foldl sha1Round h
  ((h.1 + f.1) % M32, (h.2.1 + f.2.1) % M32, (h.2.2.1 + f.2.2.1) % M32,
    (h.2.2.2.1 + f.2.2.2.1) % M32, (h.2.2.2.2 + f.2.2.2.2) % M32)

/-- SHA-1 digest of a byte list, as five 32-bit words. -/
def sha1Words (msg : List Nat) : List Nat :=
  let h := (chunks16 (toWords (sha1Pad msg))).foldl sha1Chunk
    (0x67452301, 0xEFCDAB89, 0x98BADCFE, 0x10325476, 0xC3D2E1F0)
  [h.1, h.2.1, h.2.2.1, h.2.2.2.1, h.2.2.2.2]

/-- One lowercase hex digit. -/
def hexDigit (d : Nat) : Char :=
  if d < 10 then Char.ofNat ('0'.toNat + d) else Char.ofNat ('a'.toNat + (d - 10))

/-- Big-endian bytes of a 32-bit word. -/
def word32Bytes (w : Nat) : List Nat :=
  [w / 0x1000000 % 256, w / 0x10000 % 256, w / 0x100 % 256, w % 256]

/-- Two lowercase hex digits of a byte. -/
def byteHex (b : Nat) : Str := [hexDigit (b / 16), hexDigit (b % 16)]

/-- Python `hashlib.sha1(bytes).hexdigest()`. -/
def sha1Hex (msg : List Nat) : Str :=
  ((((sha1Words msg).map word32Bytes).flatten).map byteHex).flatten

/-- Function `generate_task_id` from `main.py`:
`hashlib.sha1(f"{file_path}:{task_text}".encode("utf-8")).hexdigest()`. -/
def generate_task_id (file_path task_text : Str) : Str :=
  sha1Hex (utf8Encode (file_path ++ ':' :: task_text))

/-! ## Wall-clock instants and `strptime`

Instants are wall-clock values in the single configured timezone,
modelled at minute granularity (see the header comment).  `localize` is
the identity under the fixed-offset model, and comparison of two
localized datetimes in the same zone is lexicographic comparison of the
wall-clock fields. -/

/-- A wall-clock instant in the configured timezone (minute granularity). -/
structure DT where
  y : Nat
  mo : Nat
  d : Nat
  h : Nat
  mi : Nat
deriving DecidableEq, Repr

/-- The comparison `due_datetime <= now` performed by Python on
timezone-aware datetimes of the same fixed-offset zone: lexicographic on
wall-clock fields. -/
def DT.leB (a b : DT) : Bool :=
  if a.y < b.y then true else if b.y < a.y then false
  else if a.mo < b.mo then true else if b.mo < a.mo then false
  else if a.d < b.d then true else if b.d < a.d then false
  else if a.h < b.h then true else if b.h < a.h then false
  else a.mi ≤ b.mi

/-- Specification-side order on instants: `a` is strictly earlier than `b`. -/
def DT.Lt (a b : DT) : Prop :=
  a.y < b.y ∨ (a.y = b.y ∧ (a.mo < b.mo ∨ (a.mo = b.mo ∧ (a.d < b.d ∨
    (a.d = b.d ∧ (a.h < b.h ∨ (a.h = b.h ∧ a.mi < b.mi)))))))

/-- Specification-side order on instants: `a` is at or before `b`. -/
def DT.Le (a b : DT) : Prop := DT.Lt a b ∨ a = b

/-- Numeric value of an ASCII digit. -/
def digitVal (c : Char) : Nat := c.toNat - '0'.toNat

/-- Gregorian leap year (as validated by `datetime`). -/
def isLeap (y : Nat) : Bool := (y % 4 = 0 && y % 100 ≠ 0) || y % 400 = 0

/-- Days in a month (as validated by `datetime`). -/
def daysInMonth (y m : Nat) : Nat :=
  if m = 2 then (if isLeap y then 29 else 28)
  else if m = 4 ∨ m = 6 ∨ m = 9 ∨ m = 11 then 30
  else 31

/-- Python `datetime.strptime` on `"{ds} {ts}"` with format `"%Y-%m-%d %H:%M"` for zero-padded
fields, returning `none` where Python raises `ValueError`.  Components
are validated the way the `datetime` constructor does. -/
def strptime_ymd_hm (ds ts : Str) : Option DT :=
  match ds, ts with
  | [y1, y2, y3, y4, '-', m1, m2, '-', d1, d2], [h1, h2, ':', n1, n2] =>
    if isDigitC y1 && isDigitC y2 && isDigitC y3 && isDigitC y4 &&
       isDigitC m1 && isDigitC m2 && isDigitC d1 && isDigitC d2 &&
       isDigitC h1 && isDigitC h2 && isDigitC n1 && isDigitC n2 then
      let y := ((digitVal y1 * 10 + digitVal y2) * 10 + digitVal y3) * 10 + digitVal y4
      let mo := digitVal m1 * 10 + digitVal m2
      let d := digitVal d1 * 10 + digitVal d2
      let h := digitVal h1 * 10 + digitVal h2
      let mi := digitVal n1 * 10 + digitVal n2
      if 1 ≤ y && 1 ≤ mo && mo ≤ 12 && 1 ≤ d && d ≤ daysInMonth y mo &&
         h ≤ 23 && mi ≤ 59 then
        some ⟨y, mo, d, h, mi⟩
      else none
    else none
  | _, _ => none

/-- Python `datetime.strptime(s, "%H:%M").time()` for a zero-padded config value. -/
def parseHM (s : Str) : Option (Nat × Nat) :=
  match s with
  | [h1, h2, ':', n1, n2] =>
    if isDigitC h1 && isDigitC h2 && isDigitC n1 && isDigitC n2 then
      let h := digitVal h1 * 10 + digitVal h2
      let mi := digitVal n1 * 10 + digitVal n2
      if h ≤ 23 && mi ≤ 59 then some (h, mi) else none
    else none
  | _ => none

/-- Python `parsed_data["time"] or default_time_str` (the parsed time is a
nonempty string whenever present, so `or` selects it). -/
def timeOr (o : Option Str) (dflt : Str) : Str :=
  match o with
  | some t => t
  | none => dflt

/-- The due decision of `find_and_process_tasks` for one parsed task:
`none` when the task has no date (skipped) or when `strptime` raises
(aborting the run); otherwise `some (now >= due_datetime)`. -/
def taskDue (now : DT) (default_time_str : Str) (pd : ParsedTask) : Option Bool :=
  match pd.date with
  | none => none
  | some ds =>
    match strptime_ymd_hm ds (timeOr pd.time default_time_str) with
    | none => none
    | some due => some (DT.leB due now)

/-! ## Notification formatting -/

/-- Python `"\n".join(parts)`. -/
def joinNl : List Str → Str := joinSep ['\n']

/-- Python `", ".join(parts)`. -/
def joinComma : List Str → Str := joinSep [',', ' ']

/-- Python `pathlib.Path(file_name).stem` for a bare file name: the name without
its final suffix; a leading dot or an empty suffix does not count. -/
def stem (n : Str) : Str :=
  let r := n.reverse
  let suf := r.takeWhile (fun c => c ≠ '.')
  match r.dropWhile (fun c => c ≠ '.') with
  | '.' :: pre => if pre = [] || suf = [] then n else pre.reverse
  | _ => n

/-- Function `format_notification` from `main.py`: returns `(title, message)`. -/
def format_notification (task_text : Str) (original_task_time : Option Str)
    (tags : List Str) (file_name : Str) : Str × Str :=
  let title := strL "✅️ New task"
  let clean_file_name := stem file_name
  let tags_str := if tags.isEmpty then strL "No" else joinComma tags
  let message_parts :=
    [strL "📝 " ++ pstrip task_text] ++
    (match original_task_time with
     | some t => [strL "⏰ " ++ t]
     | none => []) ++
    [strL "🏷️ " ++ tags_str, strL "📄 " ++ clean_file_name]
  (title, joinNl message_parts)

/-! ## Delivery ledger -/

/-- Outcome of the `SELECT` in `is_notification_sent`: either the rows of
the `sent_notifications` table (ids only, `sent_at` is irrelevant to the
lookup) or a `sqlite3.Error`. -/
inductive DbRead where
  | ok (rows : List Str)
  | err
deriving DecidableEq, Repr

/-- Function `is_notification_sent` from `main.py`: `fetchone() is not None` on a
successful read; `True` when `sqlite3.Error` is caught. -/
def is_notification_sent (r : DbRead) (task_id : Str) : Bool :=
  match r with
  | .ok rows => rows.contains task_id
  | .err => true

/-- Function `mark_notification_as_sent` from `main.py`: the `INSERT` adds the row
on success; a caught `sqlite3.Error` leaves the table unchanged. -/
def mark_notification_as_sent (writeOk : Bool) (ledger : List Str) (task_id : Str) :
    List Str :=
  if writeOk then task_id :: ledger else ledger

/-! ## Scan-and-dispatch orchestration -/

/-- Python `"/".join(parts)` (how a relative `Path` renders). -/
def joinSlash : List Str → Str := joinSep ['/']

/-- The exclusion test of `find_and_process_tasks`:
`file_dir_path == exclude_dir or file_dir_path.startswith(exclude_dir + '/')`
over all configured excluded directories. -/
def excludedB (exclude_dirs : List Str) (file_dir_path : Str) : Bool :=
  exclude_dirs.any (fun e => file_dir_path == e || (e ++ ['/']).isPrefixOf file_dir_path)

/-- A Markdown file under the vault: directory segments of its path
relative to the vault root (empty for the root itself), base name, and
its lines. -/
structure MdFile where
  dirSegs : List Str
  name : Str
  lines : List Str

/-- Python `str(relative_path.parent) if relative_path.parent != Path('.') else ''`. -/
def fileDirPath (f : MdFile) : Str := joinSlash f.dirSegs

/-- Python `str(md_file)`: the absolute path of the file. -/
def fullPath (vault : Str) (f : MdFile) : Str :=
  joinSlash ([vault] ++ f.dirSegs ++ [f.name])

/-- The configuration fields the orchestrator reads (the Gotify URL and
token are absorbed into the delivery oracle). -/
structure Cfg where
  vault : Str
  exclude_dirs : List Str
  default_time_str : Str

/-- Outcome oracles for the external collaborators: HTTP delivery result
per `(title, message)`, `INSERT` success and `SELECT` failure per task id. -/
structure Env where
  deliver : Str → Str → Bool
  writeOk : Str → Bool
  readErr : Str → Bool

/-- Processing of a single line inside the loop of
`find_and_process_tasks`: returns the ledger afterwards, the
notifications delivered for this line, and `false` in the last component
when the `strptime` call raised (which aborts the whole run). -/
def taskStep (env : Env) (cfg : Cfg) (now : DT) (fpath fname : Str) (ln : Str)
    (ledger : List Str) : List Str × List (Str × Str) × Bool :=
  match parse_task_line ln with
  | none => (ledger, [], true)
  | some pd =>
    match pd.date with
    | none => (ledger, [], true)
    | some ds =>
      let task_id := generate_task_id fpath pd.text
      if is_notification_sent (if env.readErr task_id then .err else .ok ledger) task_id then
        (ledger, [], true)
      else
        match strptime_ymd_hm ds (timeOr pd.time cfg.default_time_str) with
        | none => (ledger, [], false)
        | some due =>
          if DT.leB due now then
            let tm := format_notification pd.text pd.time pd.tags fname
            if env.deliver tm.1 tm.2 then
              (mark_notification_as_sent (env.writeOk task_id) ledger task_id, [tm], true)
            else (ledger, [], true)
          else (ledger, [], true)

/-- The per-file line loop of `find_and_process_tasks`. -/
def processLines (env : Env) (cfg : Cfg) (now : DT) (fpath fname : Str) :
    List Str → List Str → List Str × List (Str × Str) × Bool
  | [], ledger => (ledger, [], true)
  | ln :: rest, ledger =>
    let r := taskStep env cfg now fpath fname ln ledger
    if r.2.2 then
      let r2 := processLines env cfg now fpath fname rest r.1
      (r2.1, r.2.1 ++ r2.2.1, r2.2.2)
    else (r.1, r.2.1, false)

/-- The file loop of `find_and_process_tasks`. -/
def processFiles (env : Env) (cfg : Cfg) (now : DT) :
    List MdFile → List Str → List Str × List (Str × Str) × Bool
  | [], ledger => (ledger, [], true)
  | f :: rest, ledger =>
    let r := processLines env cfg now (fullPath cfg.vault f) f.name f.lines ledger
    if r.2.2 then
      let r2 := processFiles env cfg now rest r.1
      (r2.1, r.2.1 ++ r2.2.1, r2.2.2)
    else (r.1, r.2.1, false)

/-- Function `find_and_process_tasks` from `main.py`: filter out files lying in an
excluded directory, then process the rest sequentially. -/
def find_and_process_tasks (env : Env) (cfg : Cfg) (now : DT) (files : List MdFile)
    (ledger : List Str) : List Str × List (Str × Str) × Bool :=
  let filtered := files.filter (fun f => !excludedB cfg.exclude_dirs (fileDirPath f))
  processFiles env cfg now filtered ledger

/-- Comparison `(h, mi) < (H, MI)` — Python `time` comparison at minute granularity
(the parsed default time has seconds = microseconds = 0, so comparing at
minute granularity is equivalent; see the header comment). -/
def hmLtB (a b : Nat × Nat) : Bool := a.1 < b.1 || (a.1 = b.1 && a.2 < b.2)

/-- Function `main` from `main.py`, after successful configuration loading: the
persistent store is `none` when the database file does not exist.  If the
default time string fails to parse, `strptime` raises and the top-level
handler ends the run with nothing done.  If the current time-of-day is
before the default notification time, `cleanup_database()` deletes the
store and the run returns.  Otherwise `setup_database()` ensures the
table exists and `find_and_process_tasks` runs.  Returns the final store
and the delivered notifications. -/
def main_run (env : Env) (cfg : Cfg) (now : DT) (files : List MdFile)
    (store : Option (List Str)) : Option (List Str) × List (Str × Str) :=
  match parseHM cfg.default_time_str with
  | none => (store, [])
  | some dflt =>
    if hmLtB (now.h, now.mi) dflt then (none, [])
    else
      let st := store.getD []
      let r := find_and_process_tasks env cfg now files st
      (some r.1, r.2.1)

/-! ## General lemmas -/

theorem flatten_map_len {α : Type} (k : Nat) (f : α → List Nat)
    (hf : ∀ a, (f a).length = k) (l : List α) :
    ((l.map f).flatten).length = k * l.length := by
  induction l with
  | nil => simp
  | cons a as ih =>
    simp only [List.map_cons, List.flatten_cons, List.length_append, ih, hf,
      List.length_cons]
    ring

theorem flatten_map_len_str {α : Type} (k : Nat) (f : α → Str)
    (hf : ∀ a, (f a).length = k) (l : List α) :
    ((l.map f).flatten).length = k * l.length := by
  induction l with
  | nil => simp
  | cons a as ih =>
    simp only [List.map_cons, List.flatten_cons, List.length_append, ih, hf,
      List.length_cons]
    ring

theorem sha1Hex_length (msg : List Nat) : (sha1Hex msg).length = 40 := by
  have h5 : (sha1Words msg).length = 5 := by
    unfold sha1Words
    rfl
  have h20 : (((sha1Words msg).map word32Bytes).flatten).length = 20 := by
    rw [flatten_map_len 4 word32Bytes (fun a => rfl), h5]
  unfold sha1Hex
  rw [flatten_map_len_str 2 byteHex (fun a => rfl), h20]

/-- The lexicographic Boolean comparison agrees with the specification
order on instants. -/
theorem DT.leB_iff (a b : DT) : DT.leB a b = true ↔ DT.Le a b := by
  have hab : (a = b) ↔ (a.y = b.y ∧ a.mo = b.mo ∧ a.d = b.d ∧ a.h = b.h ∧ a.mi = b.mi) := by
    constructor
    · intro h
      subst h
      exact ⟨rfl, rfl, rfl, rfl, rfl⟩
    · rintro ⟨h1, h2, h3, h4, h5⟩
      cases a
      cases b
      simp_all
  unfold DT.leB DT.Le DT.Lt
  rw [hab]
  split_ifs <;> simp <;> omega

theorem DT.leB_refl (a : DT) : DT.leB a a = true := by
  rw [DT.leB_iff]
  exact Or.inr rfl

/-! ## Claim theorems -/

/-- C6: `generate_task_id` is a deterministic pure function of
`(file_path, normalized_text)`: it is exactly the SHA-1 hex digest of the
UTF-8 encoding of `"{file_path}:{normalized_text}"`, its output always
has the fixed length 40, and two tasks with identical normalized text in
the same file receive the same identity. -/
theorem generate_task_id_spec (p t₁ t₂ : Str) (h : t₁ = t₂) :
    generate_task_id p t₁ = generate_task_id p t₂ ∧
    (generate_task_id p t₁).length = 40 ∧
    generate_task_id p t₁ = sha1Hex (utf8Encode (p ++ ':' :: t₁)) := by
  subst h
  exact ⟨rfl, sha1Hex_length _, rfl⟩

theorem generate_task_id_spec_witness :
    strL "Call mom" = strL "Call mom" ∧
    (generate_task_id (strL "/vault/a.md") (strL "Call mom") =
        generate_task_id (strL "/vault/a.md") (strL "Call mom") ∧
      (generate_task_id (strL "/vault/a.md") (strL "Call mom")).length = 40 ∧
      generate_task_id (strL "/vault/a.md") (strL "Call mom") =
        sha1Hex (utf8Encode (strL "/vault/a.md" ++ ':' :: strL "Call mom"))) :=
  ⟨rfl, generate_task_id_spec (strL "/vault/a.md") (strL "Call mom") (strL "Call mom") rfl⟩

/-- C7: the ledger membership check returns `true` exactly when a record
with the given task identity is present, returns `true` on any storage
read failure, and consequently a task whose ledger lookup fails with a
storage error is skipped by the orchestrator (no delivery attempt, ledger
unchanged), so a read error never causes a duplicate delivery. -/
theorem is_notification_sent_fail_safe :
    (∀ rows task_id, is_notification_sent (.ok rows) task_id = true ↔ task_id ∈ rows) ∧
    (∀ task_id, is_notification_sent .err task_id = true) ∧
    (∀ env cfg now fpath fname ln ledger,
      (∀ i, env.readErr i = true) →
      taskStep env cfg now fpath fname ln ledger = (ledger, [], true)) := by
  refine ⟨?_, ?_, ?_⟩
  · intro rows task_id
    simp [is_notification_sent]
  · intro task_id
    rfl
  · intro env cfg now fpath fname ln ledger hre
    unfold taskStep
    cases hp : parse_task_line ln with
    | none => rfl
    | some pd =>
      cases hd : pd.date with
      | none => simp [hd]
      | some ds => simp [hd, hre, is_notification_sent]

theorem is_notification_sent_fail_safe_witness :
    ((fun (_ : Str) => true) (strL "id") = true) ∧
    taskStep ⟨fun _ _ => true, fun _ => true, fun _ => true⟩
        ⟨strL "/v", [], strL "08:00"⟩ ⟨2024, 1, 1, 9, 0⟩ (strL "/v/a.md") (strL "a.md")
        (strL "- [ ] t 📅 2024-01-01") [] = ([], [], true) :=
  ⟨rfl,
    is_notification_sent_fail_safe.2.2 ⟨fun _ _ => true, fun _ => true, fun _ => true⟩
      ⟨strL "/v", [], strL "08:00"⟩ ⟨2024, 1, 1, 9, 0⟩ (strL "/v/a.md") (strL "a.md")
      (strL "- [ ] t 📅 2024-01-01") [] (fun _ => rfl)⟩

/-- C9 counterexample: the claim says the tags line carries a literal
`"none"` sentinel when the tag list is empty, but on a task with no tags
the code emits the literal `"No"`, which differs from `"none"`. -/
theorem format_notification_none_sentinel_cex :
    (format_notification (strL "x") none [] (strL "notes.md")).2 =
      strL "📝 x\n🏷️ No\n📄 notes" ∧
    strL "📝 x\n🏷️ No\n📄 notes" ≠ strL "📝 x\n🏷️ none\n📄 notes" := by
  constructor
  · rfl
  · decide

/-- C9 (amended): for every due task, the notification body's tags line
is `"🏷️ "` followed by the comma-space-joined tag list when at least one
tag is present, and by the literal sentinel `"No"` when the tag list is
empty. -/
theorem format_notification_tags_line (t : Str) (o : Option Str) (tg : List Str) (f : Str) :
    (format_notification t o tg f).2 =
      (strL "📝 " ++ pstrip t) ++
      (match o with
       | some ot => '\n' :: (strL "⏰ " ++ ot)
       | none => []) ++
      '\n' :: (strL "🏷️ " ++ (if tg.isEmpty then strL "No" else joinComma tg)) ++
      '\n' :: (strL "📄 " ++ stem f) := by
  cases o <;>
    simp [format_notification, joinNl, joinSep, List.append_assoc]

/-- C2: a run whose current time-of-day is earlier than the configured
default notification time deletes the ledger store and terminates with no
notification sent, independent of the files under the vault. -/
theorem main_early_exit (env : Env) (cfg : Cfg) (now : DT) (files : List MdFile)
    (store : Option (List Str)) (H MI : Nat)
    (hp : parseHM cfg.default_time_str = some (H, MI))
    (hlt : hmLtB (now.h, now.mi) (H, MI) = true) :
    main_run env cfg now files store = (none, []) := by
  unfold main_run
  rw [hp]
  simp [hlt]

theorem main_early_exit_witness :
    parseHM (strL "08:00") = some (8, 0) ∧
    hmLtB (7, 30) (8, 0) = true ∧
    main_run ⟨fun _ _ => true, fun _ => true, fun _ => false⟩
        ⟨strL "/v", [], strL "08:00"⟩ ⟨2024, 1, 1, 7, 30⟩
        [⟨[], strL "a.md", [strL "- [ ] t 📅 2024-01-01"]⟩]
        (some [strL "oldid"]) = (none, []) :=
  ⟨by decide, by decide,
    main_early_exit ⟨fun _ _ => true, fun _ => true, fun _ => false⟩
      ⟨strL "/v", [], strL "08:00"⟩ ⟨2024, 1, 1, 7, 30⟩
      [⟨[], strL "a.md", [strL "- [ ] t 📅 2024-01-01"]⟩]
      (some [strL "oldid"]) 8 0 (by decide) (by decide)⟩

/-- C3: for a parsed task with a date whose combined date/effective-time
string parses, the due decision is `now >= due_instant` — true exactly
when the due instant is at or before `now` (inclusive), and in particular
a run at exactly the due instant judges the task due.  The effective
time-of-day is the parsed time when present, else the configured
default. -/
theorem due_decision_inclusive (now : DT) (dflt : Str) (pd : ParsedTask) (ds : Str)
    (due : DT) (hd : pd.date = some ds)
    (hs : strptime_ymd_hm ds (timeOr pd.time dflt) = some due) :
    (taskDue now dflt pd = some true ↔ DT.Le due now) ∧
    taskDue due dflt pd = some true := by
  have key : ∀ n : DT, taskDue n dflt pd = some (DT.leB due n) := by
    intro n
    unfold taskDue
    rw [hd]
    simp only [hs]
  constructor
  · rw [key now]
    simp [DT.leB_iff]
  · rw [key due]
    simp [DT.leB_refl]

theorem due_decision_inclusive_witness :
    (⟨strL "Pay rent", some (strL "2024-01-01"), some (strL "09:00"), []⟩ :
      ParsedTask).date = some (strL "2024-01-01") ∧
    strptime_ymd_hm (strL "2024-01-01")
      (timeOr (some (strL "09:00")) (strL "08:00")) = some ⟨2024, 1, 1, 9, 0⟩ ∧
    ((taskDue ⟨2024, 1, 1, 9, 30⟩ (strL "08:00")
        ⟨strL "Pay rent", some (strL "2024-01-01"), some (strL "09:00"), []⟩ = some true ↔
      DT.Le ⟨2024, 1, 1, 9, 0⟩ ⟨2024, 1, 1, 9, 30⟩) ∧
      taskDue ⟨2024, 1, 1, 9, 0⟩ (strL "08:00")
        ⟨strL "Pay rent", some (strL "2024-01-01"), some (strL "09:00"), []⟩ = some true) :=
  ⟨rfl, by decide,
    due_decision_inclusive ⟨2024, 1, 1, 9, 30⟩ (strL "08:00")
      ⟨strL "Pay rent", some (strL "2024-01-01"), some (strL "09:00"), []⟩
      (strL "2024-01-01") ⟨2024, 1, 1, 9, 0⟩ rfl (by decide)⟩

/-! ### Ledger recording discipline (claim C1) -/

theorem taskStep_failed_delivery (env : Env) (cfg : Cfg) (now : DT) (fpath fname : Str)
    (ln : Str) (ledger : List Str) (pd : ParsedTask)
    (hparse : parse_task_line ln = some pd)
    (hfail : env.deliver (format_notification pd.text pd.time pd.tags fname).1
      (format_notification pd.text pd.time pd.tags fname).2 = false) :
    (taskStep env cfg now fpath fname ln ledger).1 = ledger ∧
    (taskStep env cfg now fpath fname ln ledger).2.1 = [] := by
  cases hd : pd.date with
  | none => simp [taskStep, hparse, hd]
  | some ds =>
    by_cases hsent : is_notification_sent
        (if env.readErr (generate_task_id fpath pd.text) = true then DbRead.err
         else DbRead.ok ledger) (generate_task_id fpath pd.text) = true
    · simp [taskStep, hparse, hd, hsent]
    · cases hs : strptime_ymd_hm ds (timeOr pd.time cfg.default_time_str) with
      | none => simp [taskStep, hparse, hd, hsent, hs]
      | some due =>
        by_cases hdue : DT.leB due now = true
        · simp [taskStep, hparse, hd, hsent, hs, hdue, hfail]
        · simp [taskStep, hparse, hd, hsent, hs, hdue]

theorem taskStep_blanket_fail (env : Env) (cfg : Cfg) (now : DT) (fpath fname : Str)
    (ln : Str) (ledger : List Str)
    (hf : ∀ t m, env.deliver t m = false) :
    (taskStep env cfg now fpath fname ln ledger).1 = ledger ∧
    (taskStep env cfg now fpath fname ln ledger).2.1 = [] := by
  cases hparse : parse_task_line ln with
  | none => simp [taskStep, hparse]
  | some pd => exact taskStep_failed_delivery env cfg now fpath fname ln ledger pd hparse (hf _ _)

theorem taskStep_changed (env : Env) (cfg : Cfg) (now : DT) (fpath fname : Str)
    (ln : Str) (ledger : List Str)
    (hch : (taskStep env cfg now fpath fname ln ledger).1 ≠ ledger) :
    ∃ pd, parse_task_line ln = some pd ∧
      env.deliver (format_notification pd.text pd.time pd.tags fname).1
        (format_notification pd.text pd.time pd.tags fname).2 = true ∧
      (taskStep env cfg now fpath fname ln ledger).1 =
        generate_task_id fpath pd.text :: ledger := by
  revert hch
  cases hparse : parse_task_line ln with
  | none => simp [taskStep, hparse]
  | some pd =>
    cases hd : pd.date with
    | none => simp [taskStep, hparse, hd]
    | some ds =>
      by_cases hsent : is_notification_sent
          (if env.readErr (generate_task_id fpath pd.text) = true then DbRead.err
           else DbRead.ok ledger) (generate_task_id fpath pd.text) = true
      · simp [taskStep, hparse, hd, hsent]
      · cases hs : strptime_ymd_hm ds (timeOr pd.time cfg.default_time_str) with
        | none => simp [taskStep, hparse, hd, hsent, hs]
        | some due =>
          by_cases hdue : DT.leB due now = true
          · cases hdel : env.deliver (format_notification pd.text pd.time pd.tags fname).1
                (format_notification pd.text pd.time pd.tags fname).2 with
            | false => simp [taskStep, hparse, hd, hsent, hs, hdue, hdel]
            | true =>
              cases hw : env.writeOk (generate_task_id fpath pd.text) with
              | false =>
                simp [taskStep, hparse, hd, hsent, hs, hdue, hdel,
                  mark_notification_as_sent, hw]
              | true =>
                intro hne
                refine ⟨pd, rfl, hdel, ?_⟩
                simp [taskStep, hparse, hd, hsent, hs, hdue, hdel,
                  mark_notification_as_sent, hw]
          · simp [taskStep, hparse, hd, hsent, hs, hdue]

theorem processLines_blanket_fail (env : Env) (cfg : Cfg) (now : DT) (fpath fname : Str)
    (lines : List Str) (ledger : List Str)
    (hf : ∀ t m, env.deliver t m = false) :
    (processLines env cfg now fpath fname lines ledger).1 = ledger := by
  induction lines generalizing ledger with
  | nil => rfl
  | cons ln rest ih =>
    have h1 := taskStep_blanket_fail env cfg now fpath fname ln ledger hf
    simp only [processLines]
    split
    · rw [h1.1, ih]
    · exact h1.1

/-- C1: the orchestrator records a task's identity in the ledger only on
confirmed successful delivery.  If the notifier reports failure for a
parsed task, the ledger is unchanged and no notification is recorded for
it; whenever the ledger changes across a task step, the notifier
returned success and exactly that task's identity was prepended; and a
whole per-file pass with a failing notifier leaves the ledger exactly as
it was, so every task stays eligible for the next run. -/
theorem ledger_records_only_confirmed_delivery (env : Env) (cfg : Cfg) (now : DT)
    (fpath fname : Str) :
    (∀ ln ledger pd,
      parse_task_line ln = some pd →
      env.deliver (format_notification pd.text pd.time pd.tags fname).1
        (format_notification pd.text pd.time pd.tags fname).2 = false →
      (taskStep env cfg now fpath fname ln ledger).1 = ledger) ∧
    (∀ ln ledger,
      (taskStep env cfg now fpath fname ln ledger).1 ≠ ledger →
      ∃ pd, parse_task_line ln = some pd ∧
        env.deliver (format_notification pd.text pd.time pd.tags fname).1
          (format_notification pd.text pd.time pd.tags fname).2 = true ∧
        (taskStep env cfg now fpath fname ln ledger).1 =
          generate_task_id fpath pd.text :: ledger) ∧
    (∀ lines ledger,
      (∀ t m, env.deliver t m = false) →
      (processLines env cfg now fpath fname lines ledger).1 = ledger) :=
  ⟨fun ln ledger pd hp hf => (taskStep_failed_delivery env cfg now fpath fname ln ledger pd hp hf).1,
   fun ln ledger hch => taskStep_changed env cfg now fpath fname ln ledger hch,
   fun lines ledger hf => processLines_blanket_fail env cfg now fpath fname lines ledger hf⟩

theorem ledger_records_only_confirmed_delivery_witness :
    parse_task_line (strL "- [ ] t 📅 2024-01-01") =
      some ⟨strL "t", some (strL "2024-01-01"), none, []⟩ ∧
    (Env.mk (fun _ _ => false) (fun _ => true) (fun _ => false)).deliver
      (format_notification (strL "t") none [] (strL "a.md")).1
      (format_notification (strL "t") none [] (strL "a.md")).2 = false ∧
    (taskStep (Env.mk (fun _ _ => false) (fun _ => true) (fun _ => false))
      ⟨strL "/v", [], strL "08:00"⟩ ⟨2024, 1, 1, 9, 0⟩ (strL "/v/a.md") (strL "a.md")
      (strL "- [ ] t 📅 2024-01-01") [strL "x"]).1 = [strL "x"] :=
  ⟨by rfl, rfl,
    (ledger_records_only_confirmed_delivery
        (Env.mk (fun _ _ => false) (fun _ => true) (fun _ => false))
        ⟨strL "/v", [], strL "08:00"⟩ ⟨2024, 1, 1, 9, 0⟩ (strL "/v/a.md") (strL "a.md")).1
      (strL "- [ ] t 📅 2024-01-01") [strL "x"]
      ⟨strL "t", some (strL "2024-01-01"), none, []⟩ (by rfl) rfl⟩

/-! ### Exclusion semantics (claim C8) -/

/-- Well-formed path segments: nonempty and slash-free. -/
def SegsWF (l : List Str) : Prop := ∀ s ∈ l, s ≠ [] ∧ '/' ∉ s

theorem joinSlash_cons (s : Str) (ss : List Str) :
    joinSlash (s :: ss) = s ++ (if ss = [] then [] else '/' :: joinSlash ss) := by
  cases ss with
  | nil => simp [joinSlash, joinSep]
  | cons t ts => simp [joinSlash, joinSep]

/-- Splitting a concatenation at the first slash: if `a` and `b` are
slash-free and `u`, `v` each are empty or start with a slash, then
`a ++ u = b ++ v` forces `a = b` and `u = v`. -/
theorem slash_split_eq : ∀ (a b u v : Str), '/' ∉ a → '/' ∉ b →
    (u = [] ∨ ∃ u', u = '/' :: u') → (v = [] ∨ ∃ v', v = '/' :: v') →
    a ++ u = b ++ v → a = b ∧ u = v := by
  intro a
  induction a with
  | nil =>
    intro b u v ha hb hu hv heq
    cases b with
    | nil => exact ⟨rfl, heq⟩
    | cons x b' =>
      simp only [List.nil_append, List.cons_append] at heq
      rcases hu with hu | ⟨u', hu⟩
      · subst hu
        simp at heq
      · subst hu
        rw [List.cons.injEq] at heq
        have hx : x = '/' := heq.1.symm
        subst hx
        exact absurd (List.mem_cons_self _ _) hb
  | cons y a' ih =>
    intro b u v ha hb hu hv heq
    cases b with
    | nil =>
      simp only [List.cons_append, List.nil_append] at heq
      rcases hv with hv | ⟨v', hv⟩
      · subst hv
        simp at heq
      · subst hv
        rw [List.cons.injEq] at heq
        have hy : y = '/' := heq.1
        subst hy
        exact absurd (List.mem_cons_self _ _) ha
    | cons x b' =>
      simp only [List.cons_append, List.cons.injEq] at heq
      obtain ⟨hyx, heq'⟩ := heq
      have ha' : '/' ∉ a' := fun hm => ha (List.mem_cons_of_mem _ hm)
      have hb' : '/' ∉ b' := fun hm => hb (List.mem_cons_of_mem _ hm)
      obtain ⟨h1, h2⟩ := ih b' u v ha' hb' hu hv heq'
      exact ⟨by rw [hyx, h1], h2⟩

/-- Splitting a prefix relation at the first slash: if `a`, `b` are
slash-free and `v` is empty or starts with a slash, a prefix of the form
`a ++ '/' :: u` of `b ++ v` forces `a = b`, `v = '/' :: v'`, and
`u <+: v'`. -/
theorem slash_split_prefix : ∀ (a b u v : Str), '/' ∉ a → '/' ∉ b →
    (v = [] ∨ ∃ v', v = '/' :: v') →
    (a ++ '/' :: u) <+: (b ++ v) → ∃ v', v = '/' :: v' ∧ a = b ∧ u <+: v' := by
  intro a
  induction a with
  | nil =>
    intro b u v ha hb hv hpre
    cases b with
    | nil =>
      simp only [List.nil_append] at hpre
      rcases hv with hv | ⟨v', hv⟩
      · subst hv
        exact absurd (List.prefix_nil.mp hpre) (List.cons_ne_nil _ _)
      · subst hv
        rw [List.cons_prefix_cons] at hpre
        exact ⟨v', rfl, rfl, hpre.2⟩
    | cons x b' =>
      simp only [List.nil_append, List.cons_append] at hpre
      rw [List.cons_prefix_cons] at hpre
      have hx : x = '/' := hpre.1.symm
      subst hx
      exact absurd (List.mem_cons_self _ _) hb
  | cons y a' ih =>
    intro b u v ha hb hv hpre
    cases b with
    | nil =>
      simp only [List.cons_append, List.nil_append] at hpre
      rcases hv with hv | ⟨v', hv⟩
      · subst hv
        exact absurd (List.prefix_nil.mp hpre) (List.cons_ne_nil _ _)
      · subst hv
        rw [List.cons_prefix_cons] at hpre
        have hy : y = '/' := hpre.1
        subst hy
        exact absurd (List.mem_cons_self _ _) ha
    | cons x b' =>
      simp only [List.cons_append] at hpre
      rw [List.cons_prefix_cons] at hpre
      have ha' : '/' ∉ a' := fun hm => ha (List.mem_cons_of_mem _ hm)
      have hb' : '/' ∉ b' := fun hm => hb (List.mem_cons_of_mem _ hm)
      obtain ⟨v', hv', h1, h2⟩ := ih b' u v ha' hb' hv hpre.2
      exact ⟨v', hv', by rw [hpre.1, h1], h2⟩

theorem joinSlash_inj : ∀ (es ds : List Str), SegsWF es → SegsWF ds →
    (joinSlash es = joinSlash ds ↔ es = ds) := by
  intro es
  induction es with
  | nil =>
    intro ds hwe hwd
    cases ds with
    | nil => simp
    | cons d ds' =>
      obtain ⟨hd1, _⟩ := hwd d (List.mem_cons_self d ds')
      rw [joinSlash_cons]
      constructor
      · intro h
        cases d with
        | nil => exact absurd rfl hd1
        | cons x xs => simp [joinSlash, joinSep] at h
      · intro h
        exact absurd h.symm (List.cons_ne_nil d ds')
  | cons e es' ih =>
    intro ds hwe hwd
    obtain ⟨he1, he2⟩ := hwe e (List.mem_cons_self e es')
    have hwe' : SegsWF es' := fun s hs => hwe s (List.mem_cons_of_mem _ hs)
    cases ds with
    | nil =>
      rw [joinSlash_cons]
      constructor
      · intro h
        cases e with
        | nil => exact absurd rfl he1
        | cons x xs => simp [joinSlash, joinSep] at h
      · intro h
        exact absurd h (List.cons_ne_nil e es')
    | cons d ds' =>
      obtain ⟨hd1, hd2⟩ := hwd d (List.mem_cons_self d ds')
      have hwd' : SegsWF ds' := fun s hs => hwd s (List.mem_cons_of_mem _ hs)
      rw [joinSlash_cons, joinSlash_cons]
      constructor
      · intro h
        have hu : (if es' = [] then ([] : Str) else '/' :: joinSlash es') = [] ∨
            ∃ u', (if es' = [] then ([] : Str) else '/' :: joinSlash es') = '/' :: u' := by
          by_cases hc : es' = [] <;> simp [hc]
        have hv : (if ds' = [] then ([] : Str) else '/' :: joinSlash ds') = [] ∨
            ∃ v', (if ds' = [] then ([] : Str) else '/' :: joinSlash ds') = '/' :: v' := by
          by_cases hc : ds' = [] <;> simp [hc]
        obtain ⟨h1, h2⟩ := slash_split_eq e d _ _ he2 hd2 hu hv h
        subst h1
        by_cases hc : es' = [] <;> by_cases hc' : ds' = []
        · rw [hc, hc']
        · rw [if_pos hc, if_neg hc'] at h2
          simp at h2
        · rw [if_neg hc, if_pos hc'] at h2
          simp at h2
        · rw [if_neg hc, if_neg hc'] at h2
          rw [List.cons.injEq] at h2
          rw [(ih ds' hwe' hwd').mp h2.2]
      · intro h
        injection h with h1 h2
        rw [h1, h2]

/-- Characterization of `startswith(exclude_dir + '/')` on rendered
paths: it holds exactly when the excluded segments are a proper prefix of
the directory's segments. -/
theorem joinSlash_slash_prefix : ∀ (es ds : List Str), SegsWF es → SegsWF ds →
    es ≠ [] →
    ((joinSlash es ++ ['/']) <+: joinSlash ds ↔ ∃ r, r ≠ [] ∧ ds = es ++ r) := by
  intro es
  induction es with
  | nil => intro ds _ _ hne; exact absurd rfl hne
  | cons e es' ih =>
    intro ds hwe hwd _
    obtain ⟨he1, he2⟩ := hwe e (List.mem_cons_self e es')
    have hwe' : SegsWF es' := fun s hs => hwe s (List.mem_cons_of_mem _ hs)
    cases ds with
    | nil =>
      constructor
      · intro h
        have h2 := List.prefix_nil.mp h
        simp at h2
      · rintro ⟨r, hr, habs⟩
        simp at habs
    | cons d ds' =>
      obtain ⟨hd1, hd2⟩ := hwd d (List.mem_cons_self d ds')
      have hwd' : SegsWF ds' := fun s hs => hwd s (List.mem_cons_of_mem _ hs)
      rw [joinSlash_cons, joinSlash_cons]
      have hv : (if ds' = [] then ([] : Str) else '/' :: joinSlash ds') = [] ∨
          ∃ v', (if ds' = [] then ([] : Str) else '/' :: joinSlash ds') = '/' :: v' := by
        by_cases hc : ds' = [] <;> simp [hc]
      by_cases hes' : es' = []
      · subst hes'
        rw [if_pos rfl]
        constructor
        · intro h
          rw [List.append_assoc] at h
          obtain ⟨v', hv', h1, _⟩ := slash_split_prefix e d [] _ he2 hd2 hv
            (by simpa using h)
          have hds' : ds' ≠ [] := by
            intro hc
            rw [hc] at hv'
            simp at hv'
          exact ⟨ds', hds', by simp [h1]⟩
        · rintro ⟨r, hr, hds⟩
          simp only [List.cons_append, List.nil_append] at hds
          rw [List.cons.injEq] at hds
          rw [hds.1, hds.2, if_neg hr]
          exact ⟨joinSlash r, by simp⟩
      · rw [if_neg hes']
        constructor
        · intro h
          rw [List.append_assoc] at h
          obtain ⟨v', hv', h1, h2⟩ := slash_split_prefix e d (joinSlash es' ++ ['/']) _
            he2 hd2 hv (by simpa using h)
          have hds' : ds' ≠ [] := by
            intro hc
            rw [hc] at hv'
            simp at hv'
          have hv'' : v' = joinSlash ds' := by
            rw [if_neg hds'] at hv'
            exact ((List.cons.injEq _ _ _ _).mp hv').2.symm
          rw [hv''] at h2
          obtain ⟨r, hr, hds⟩ := (ih ds' hwe' hwd' hes').mp h2
          exact ⟨r, hr, by rw [h1, hds]; rfl⟩
        · rintro ⟨r, hr, hds⟩
          simp only [List.cons_append] at hds
          rw [List.cons.injEq] at hds
          obtain ⟨hed, hds'⟩ := hds
          have hds'ne : ds' ≠ [] := by
            rw [hds']
            intro hc
            rcases List.append_eq_nil.mp hc with ⟨hc1, _⟩
            exact hes' hc1
          rw [if_neg hds'ne]
          have hpre : (joinSlash es' ++ ['/']) <+: joinSlash ds' :=
            (ih ds' hwe' hwd' hes').mpr ⟨r, hr, hds'⟩
          obtain ⟨t, ht⟩ := hpre
          refine ⟨t, ?_⟩
          rw [hed]
          rw [← ht]
          simp

/-- C8: file exclusion is exact-segment-or-proper-subpath matching on the
path relative to the vault root, never substring matching: for
well-formed segment lists, the code's string test against one excluded
directory holds exactly when the excluded directory's segments are a
prefix of the file directory's segments; and an excluded file is dropped
from the scan, contributing no notification and no ledger change to the
run. -/
theorem exclusion_segment_not_substring :
    (∀ es ds, SegsWF es → SegsWF ds → es ≠ [] →
      (excludedB [joinSlash es] (joinSlash ds) = true ↔ es <+: ds)) ∧
    (∀ env cfg now f files ledger,
      excludedB cfg.exclude_dirs (fileDirPath f) = true →
      find_and_process_tasks env cfg now (f :: files) ledger =
        find_and_process_tasks env cfg now files ledger) := by
  constructor
  · intro es ds hwe hwd hne
    have heq := joinSlash_inj ds es hwd hwe
    have hpre := joinSlash_slash_prefix es ds hwe hwd hne
    simp only [excludedB, List.any_cons, List.any_nil, Bool.or_false]
    rw [Bool.or_eq_true, beq_iff_eq, List.isPrefixOf_iff_prefix, heq, hpre]
    constructor
    · rintro (h | ⟨r, _, hds⟩)
      · exact h ▸ List.prefix_refl es
      · exact ⟨r, hds.symm⟩
    · rintro ⟨t, ht⟩
      cases t with
      | nil => exact Or.inl (by rw [← ht]; simp)
      | cons x ts => exact Or.inr ⟨x :: ts, by simp, ht.symm⟩
  · intro env cfg now f files ledger h
    simp [find_and_process_tasks, List.filter_cons, h]

theorem exclusion_segment_not_substring_witness :
    SegsWF [strL "archive"] ∧ SegsWF [strL "archive", strL "old"] ∧
    [strL "archive"] ≠ [] ∧
    (excludedB [joinSlash [strL "archive"]] (joinSlash [strL "archive", strL "old"]) = true ↔
      [strL "archive"] <+: [strL "archive", strL "old"]) :=
  ⟨by unfold SegsWF; decide, by unfold SegsWF; decide, by decide,
    exclusion_segment_not_substring.1 [strL "archive"] [strL "archive", strL "old"]
      (by unfold SegsWF; decide) (by unfold SegsWF; decide) (by decide)⟩

/-! ### The checklist-marker grammar (claim C4) -/

/-- The language of `TASK_MARKER_REGEX` (`^\s*-\s*\[\s*\]\s*`), stated
declaratively: a whitespace run, a dash, a whitespace run, an opening
bracket, a whitespace run, a closing bracket, then anything (the final
`\s*` adds no constraint to membership).  Each run may be empty. -/
def MarkerGrammar (l : Str) : Prop :=
  ∃ a b c r, l = a ++ '-' :: (b ++ '[' :: (c ++ ']' :: r)) ∧
    (∀ x ∈ a, isWS x = true) ∧ (∀ x ∈ b, isWS x = true) ∧ (∀ x ∈ c, isWS x = true)

theorem dropWhile_append_all (p : Char → Bool) (a l : Str) (h : ∀ x ∈ a, p x = true) :
    (a ++ l).dropWhile p = l.dropWhile p := by
  induction a with
  | nil => rfl
  | cons x a' ih =>
    simp only [List.cons_append, List.dropWhile_cons, h x (List.mem_cons_self x a'),
      if_true]
    exact ih (fun y hy => h y (List.mem_cons_of_mem _ hy))

theorem markerRest_grammar (l : Str) : (∃ r, markerRest l = some r) ↔ MarkerGrammar l := by
  constructor
  · rintro ⟨r, hr⟩
    unfold markerRest at hr
    cases h0 : l.dropWhile isWS with
    | nil => rw [h0] at hr; simp at hr
    | cons c0 rest0 =>
      rw [h0] at hr
      split at hr
      · rename_i A heqA
        injection heqA with hc0 hA
        subst hc0
        subst hA
        split at hr
        · rename_i B heqB
          split at hr
          · rename_i C heqC
            refine ⟨l.takeWhile isWS, rest0.takeWhile isWS, B.takeWhile isWS, C,
              ?_, ?_, ?_, ?_⟩
            · conv_lhs => rw [← List.takeWhile_append_dropWhile (p := isWS) (l := l)]
              rw [h0]
              congr 1
              congr 1
              conv_lhs => rw [← List.takeWhile_append_dropWhile (p := isWS) (l := rest0)]
              rw [heqB]
              congr 1
              congr 1
              conv_lhs => rw [← List.takeWhile_append_dropWhile (p := isWS) (l := B)]
              rw [heqC]
            · exact fun x hx => List.mem_takeWhile_imp hx
            · exact fun x hx => List.mem_takeWhile_imp hx
            · exact fun x hx => List.mem_takeWhile_imp hx
          · simp at hr
        · simp at hr
      · simp at hr
  · rintro ⟨a, b, c, r, hl, ha, hb, hc⟩
    subst hl
    unfold markerRest
    rw [dropWhile_append_all isWS a _ ha]
    rw [List.dropWhile_cons]
    simp only [show isWS '-' = false from rfl, Bool.false_eq_true, if_false]
    rw [dropWhile_append_all isWS b _ hb]
    rw [List.dropWhile_cons]
    simp only [show isWS '[' = false from rfl, Bool.false_eq_true, if_false]
    rw [dropWhile_append_all isWS c _ hc]
    rw [List.dropWhile_cons]
    simp only [show isWS ']' = false from rfl, Bool.false_eq_true, if_false]
    exact ⟨r.dropWhile isWS, rfl⟩

/-- C4: a line yields a `ParsedTask` attempt exactly when it begins with
the checklist-marker grammar — a (possibly empty) leading whitespace run,
a dash, a whitespace run, an empty bracket pair possibly enclosing
whitespace, as matched by `TASK_MARKER_REGEX`; every other line,
including one with a checked box, parses to `none`. -/
theorem parse_none_iff_no_marker (l : Str) :
    parse_task_line l = none ↔ ¬ MarkerGrammar l := by
  rw [← markerRest_grammar]
  unfold parse_task_line
  cases h : markerRest l with
  | none => simp [h]
  | some rest => simp [h]

/-! ### Totality and field shapes of the parser (claim C10) -/

theorem searchTok_shape (mk : Char) (shape : Str → Bool) (n : Nat) :
    ∀ (s : Str) (g0 g : Str), searchTok mk shape n s = some (g0, g) → shape g = true := by
  intro s
  induction s with
  | nil => intro g0 g h; simp [searchTok] at h
  | cons c cs ih =>
    intro g0 g h
    unfold searchTok at h
    by_cases hc : c = mk
    · rw [if_pos hc] at h
      by_cases hs : shape ((cs.dropWhile isWS).take n) = true
      · rw [if_pos hs] at h
        injection h with h'
        injection h' with h1 h2
        rw [← h2]
        exact hs
      · rw [if_neg hs] at h
        exact ih g0 g h
    · rw [if_neg hc] at h
      exact ih g0 g h

theorem tagScanF_tags_shape : ∀ (f : Nat) (s : Str) (g : Str),
    g ∈ (tagScanF f s).1 →
    ∃ gs, g = '#' :: gs ∧ gs ≠ [] ∧ ∀ x ∈ g, isWS x = false := by
  intro f
  induction f with
  | zero =>
    intro s g h
    cases s with
    | nil => simp [tagScanF] at h
    | cons c cs => simp [tagScanF] at h
  | succ f ih =>
    intro s g h
    cases s with
    | nil => simp [tagScanF] at h
    | cons c cs =>
      unfold tagScanF at h
      by_cases hc : c = '#'
      · rw [if_pos hc] at h
        by_cases ht : cs.takeWhile (fun x => !isWS x) = []
        · simp only [ht, if_true] at h
          exact ih cs g h
        · simp only [ht, if_false] at h
          simp only [List.mem_cons] at h
          rcases h with h | h
          · refine ⟨cs.takeWhile (fun x => !isWS x), h, ht, ?_⟩
            intro x hx
            rw [h] at hx
            simp only [List.mem_cons] at hx
            rcases hx with hx | hx
            · rw [hx]
              rfl
            · have := List.mem_takeWhile_imp hx
              simpa using this
          · exact ih _ g h
      · rw [if_neg hc] at h
        exact ih cs g h

/-- C10: the line parser is total (a Lean function) and its outputs are
well-shaped: on any input line it returns `none` or a record whose date
field, when present, matches the digit shape `YYYY-MM-DD`, whose time
field, when present, matches the digit shape `HH:MM`, and whose tags each
consist of `'#'` followed by a nonempty run of non-whitespace
characters. -/
theorem parse_shapes (line : Str) (pt : ParsedTask)
    (h : parse_task_line line = some pt) :
    (∀ d, pt.date = some d → dateShapeB d = true) ∧
    (∀ t, pt.time = some t → timeShapeB t = true) ∧
    (∀ g ∈ pt.tags, ∃ gs, g = '#' :: gs ∧ gs ≠ [] ∧ ∀ x ∈ g, isWS x = false) := by
  unfold parse_task_line at h
  cases hm : markerRest line with
  | none => rw [hm] at h; simp at h
  | some rest =>
    rw [hm] at h
    simp only at h
    injection h with h
    subst h
    refine ⟨?_, ?_, ?_⟩
    · intro d hd
      cases hsearch : dateSearch (pstrip (' ' :: rest)) with
      | none => rw [hsearch] at hd; simp at hd
      | some g =>
        rw [hsearch] at hd
        simp only [Option.map_some', Option.some.injEq] at hd
        rw [← hd]
        exact searchTok_shape '📅' dateShapeB 10 _ g.1 g.2 hsearch
    · intro t ht
      cases hsearch : timeSearch (pstrip (' ' :: rest)) with
      | none => rw [hsearch] at ht; simp at ht
      | some g =>
        rw [hsearch] at ht
        simp only [Option.map_some', Option.some.injEq] at ht
        rw [← ht]
        exact searchTok_shape '⏰' timeShapeB 5 _ g.1 g.2 hsearch
    · intro g hg
      exact tagScanF_tags_shape _ _ g hg

theorem parse_shapes_witness :
    parse_task_line (strL "- [ ] Pay rent 📅 2024-01-01 ⏰ 09:00 #finance") =
      some ⟨strL "Pay rent", some (strL "2024-01-01"), some (strL "09:00"),
        [strL "#finance"]⟩ ∧
    ((∀ d, (some (strL "2024-01-01") : Option Str) = some d → dateShapeB d = true) ∧
     (∀ t, (some (strL "09:00") : Option Str) = some t → timeShapeB t = true) ∧
     (∀ g ∈ [strL "#finance"],
        ∃ gs, g = '#' :: gs ∧ gs ≠ [] ∧ ∀ x ∈ g, isWS x = false)) :=
  ⟨by rfl,
    parse_shapes (strL "- [ ] Pay rent 📅 2024-01-01 ⏰ 09:00 #finance")
      ⟨strL "Pay rent", some (strL "2024-01-01"), some (strL "09:00"), [strL "#finance"]⟩
      (by rfl)⟩

/-! ### Round-trip extraction (claim C5)

A task line is modelled as the checklist marker followed by
space-separated tokens — plain words, one date token, one time token,
and tag tokens — in arbitrary order.  The claim is settled by computing
`parse_task_line` on every such line. -/

/-- A space-separated token of a rendered task line. -/
inductive Tok where
  | word (w : Str)
  | date (d : Str)
  | time (t : Str)
  | tag (g : Str)
deriving DecidableEq, Repr

/-- The characters a token contributes to the line. -/
def tokStr : Tok → Str
  | .word w => w
  | .date d => '📅' :: ' ' :: d
  | .time t => '⏰' :: ' ' :: t
  | .tag g => '#' :: g

/-- Token text after the date token has been removed. -/
def tokStrD : Tok → Str
  | .word w => w
  | .date _ => []
  | .time t => '⏰' :: ' ' :: t
  | .tag g => '#' :: g

/-- Token text after the date and time tokens have been removed. -/
def tokStrDT : Tok → Str
  | .word w => w
  | .date _ => []
  | .time _ => []
  | .tag g => '#' :: g

/-- Token text after date, time, and tags have been removed. -/
def tokStrW : Tok → Str
  | .word w => w
  | _ => []

def Tok.isDate : Tok → Bool
  | .date _ => true
  | _ => false

def Tok.isTime : Tok → Bool
  | .time _ => true
  | _ => false

/-- The tag string a token contributes to `pt.tags`, if any. -/
def tagOf : Tok → Option Str
  | .tag g => some ('#' :: g)
  | _ => none

/-- The word string a token contributes to `pt.text`, if any. -/
def wordOf : Tok → Option Str
  | .word w => some w
  | _ => none

/-- A plain word: nonempty, and free of whitespace and of the marker
characters of the metadata grammar. -/
def wordOK (w : Str) : Prop :=
  w ≠ [] ∧ ∀ c ∈ w, isWS c = false ∧ c ≠ '#' ∧ c ≠ '📅' ∧ c ≠ '⏰' ∧ c ≠ '['

/-- A tag body: nonempty, whitespace-free, free of the date/time marker
symbols. -/
def tagOK (g : Str) : Prop :=
  g ≠ [] ∧ ∀ c ∈ g, isWS c = false ∧ c ≠ '📅' ∧ c ≠ '⏰'

/-- Well-formedness of one token. -/
def tokOK : Tok → Prop
  | .word w => wordOK w
  | .date d => dateShapeB d = true
  | .time t => timeShapeB t = true
  | .tag g => tagOK g

/-- The rendered token region of a line. -/
def renderToks (ts : List Tok) : Str := joinSpace (ts.map tokStr)

/-- A rendered task line: the canonical marker `"- [ ] "` followed by the
space-separated tokens. -/
def renderLine (ts : List Tok) : Str :=
  '-' :: ' ' :: '[' :: ' ' :: ']' :: ' ' :: renderToks ts

theorem digit_not_special (c : Char) (h : isDigitC c = true) :
    isWS c = false ∧ c ≠ '#' ∧ c ≠ '📅' ∧ c ≠ '⏰' := by
  simp only [isDigitC, Bool.and_eq_true, decide_eq_true_eq] at h
  obtain ⟨h1, h2⟩ := h
  rw [Char.le_def] at h1 h2
  refine ⟨?_, ?_, ?_, ?_⟩
  · simp only [isWS, Bool.or_eq_false_iff, decide_eq_false_iff_not]
    refine ⟨⟨⟨⟨⟨?_, ?_⟩, ?_⟩, ?_⟩, ?_⟩, ?_⟩ <;>
      (intro hc; subst hc; revert h1 h2; decide)
  · intro hc; subst hc; revert h1 h2; decide
  · intro hc; subst hc; revert h1 h2; decide
  · intro hc; subst hc; revert h1 h2; decide

theorem dateShapeB_elim (d : Str) (h : dateShapeB d = true) :
    d.length = 10 ∧ (∃ c d', d = c :: d' ∧ isDigitC c = true) ∧
    ∀ c ∈ d, isDigitC c = true ∨ c = '-' := by
  unfold dateShapeB at h
  split at h
  · rename_i a b c d4 e f g h8 i j
    simp only [Bool.and_eq_true, decide_eq_true_eq] at h
    obtain ⟨⟨⟨⟨⟨⟨⟨⟨⟨h1, h2⟩, h3⟩, h4⟩, h5⟩, h6⟩, h7⟩, h8'⟩, h9⟩, h10⟩ := h
    refine ⟨rfl, ⟨a, _, rfl, h1⟩, ?_⟩
    intro x hx
    simp only [List.mem_cons, List.not_mem_nil, or_false] at hx
    rcases hx with hx | hx | hx | hx | hx | hx | hx | hx | hx | hx <;> subst hx
    · exact Or.inl h1
    · exact Or.inl h2
    · exact Or.inl h3
    · exact Or.inl h4
    · exact Or.inr h5
    · exact Or.inl h6
    · exact Or.inl h7
    · exact Or.inr h8'
    · exact Or.inl h9
    · exact Or.inl h10
  · cases h

theorem timeShapeB_elim (t : Str) (h : timeShapeB t = true) :
    t.length = 5 ∧ (∃ c t', t = c :: t' ∧ isDigitC c = true) ∧
    ∀ c ∈ t, isDigitC c = true ∨ c = ':' := by
  unfold timeShapeB at h
  split at h
  · rename_i a b c d e
    simp only [Bool.and_eq_true, decide_eq_true_eq] at h
    obtain ⟨⟨⟨⟨h1, h2⟩, h3⟩, h4⟩, h5⟩ := h
    refine ⟨rfl, ⟨a, _, rfl, h1⟩, ?_⟩
    intro x hx
    simp only [List.mem_cons, List.not_mem_nil, or_false] at hx
    rcases hx with hx | hx | hx | hx | hx <;> subst hx
    · exact Or.inl h1
    · exact Or.inl h2
    · exact Or.inr h3
    · exact Or.inl h4
    · exact Or.inl h5
  · cases h

/-- Characters of a date string are never whitespace, `#`, `📅`, or `⏰`. -/
theorem date_chars (d : Str) (h : dateShapeB d = true) :
    ∀ c ∈ d, isWS c = false ∧ c ≠ '#' ∧ c ≠ '📅' ∧ c ≠ '⏰' := by
  intro c hc
  rcases (dateShapeB_elim d h).2.2 c hc with hd | hd
  · exact digit_not_special c hd
  · subst hd
    exact ⟨rfl, by decide, by decide, by decide⟩

theorem time_chars (t : Str) (h : timeShapeB t = true) :
    ∀ c ∈ t, isWS c = false ∧ c ≠ '#' ∧ c ≠ '📅' ∧ c ≠ '⏰' := by
  intro c hc
  rcases (timeShapeB_elim t h).2.2 c hc with hd | hd
  · exact digit_not_special c hd
  · subst hd
    exact ⟨rfl, by decide, by decide, by decide⟩

theorem joinSpace_nil : joinSpace [] = [] := rfl

theorem joinSpace_singleton (s : Str) : joinSpace [s] = s := rfl

theorem joinSpace_cons (s : Str) (ss : List Str) (h : ss ≠ []) :
    joinSpace (s :: ss) = s ++ ' ' :: joinSpace ss := by
  cases ss with
  | nil => exact absurd rfl h
  | cons a as => simp [joinSpace, joinSep]

theorem mem_joinSpace (c : Char) : ∀ (ss : List Str), c ∈ joinSpace ss →
    c = ' ' ∨ ∃ s ∈ ss, c ∈ s := by
  intro ss
  induction ss with
  | nil => intro h; simp [joinSpace, joinSep] at h
  | cons s ss' ih =>
    intro h
    cases ss' with
    | nil =>
      rw [joinSpace_singleton] at h
      exact Or.inr ⟨s, List.mem_cons_self s [], h⟩
    | cons a as =>
      rw [joinSpace_cons s (a :: as) (by simp)] at h
      rcases List.mem_append.mp h with h | h
      · exact Or.inr ⟨s, List.mem_cons_self _ _, h⟩
      · rcases List.mem_cons.mp h with h | h
        · exact Or.inl h
        · rcases ih h with h | ⟨s', hs', hc⟩
          · exact Or.inl h
          · exact Or.inr ⟨s', List.mem_cons_of_mem _ hs', hc⟩

/-- Splitting a space-join at a distinguished entry. -/
theorem joinSpace_split (p : Str) : ∀ (A B : List Str),
    joinSpace (A ++ p :: B) =
      (if A = [] then [] else joinSpace A ++ [' ']) ++ p ++
      (if B = [] then [] else ' ' :: joinSpace B) := by
  intro A
  induction A with
  | nil =>
    intro B
    simp only [List.nil_append, if_pos rfl]
    cases B with
    | nil => simp [joinSpace_singleton]
    | cons b bs => rw [joinSpace_cons p (b :: bs) (by simp)]; simp
  | cons a A' ih =>
    intro B
    have hne : A' ++ p :: B ≠ [] := by simp
    rw [List.cons_append, joinSpace_cons a (A' ++ p :: B) hne, ih B]
    have hcons : (a :: A' : List Str) ≠ [] := by simp
    rw [if_neg hcons]
    cases A' with
    | nil =>
      rw [if_pos rfl, joinSpace_singleton]
      simp
    | cons x xs =>
      have h1 : (x :: xs : List Str) ≠ [] := by simp
      rw [if_neg h1, joinSpace_cons a (x :: xs) h1]
      simp

theorem markerRest_canonical (R : Str) :
    markerRest ('-' :: ' ' :: '[' :: ' ' :: ']' :: ' ' :: R) = some (R.dropWhile isWS) := rfl

theorem dropWhile_eq_self_of_head (p : Char → Bool) (R : Str)
    (h : R = [] ∨ ∃ c R', R = c :: R' ∧ p c = false) : R.dropWhile p = R := by
  rcases h with h | ⟨c, R', h, hc⟩
  · subst h; rfl
  · subst h
    rw [List.dropWhile_cons, if_neg (by simp [hc])]

theorem lstrip_eq_self (R : Str) (h : R = [] ∨ ∃ c R', R = c :: R' ∧ isWS c = false) :
    lstrip R = R := dropWhile_eq_self_of_head isWS R h

theorem rstrip_eq_self (R : Str) (h : R = [] ∨ ∃ X c, R = X ++ [c] ∧ isWS c = false) :
    rstrip R = R := by
  rcases h with h | ⟨X, c, h, hc⟩
  · subst h; rfl
  · subst h
    unfold rstrip
    rw [List.reverse_append]
    simp only [List.reverse_cons, List.reverse_nil, List.nil_append, List.cons_append,
      List.dropWhile_cons]
    rw [if_neg (by simp [hc])]
    simp

theorem pstrip_space (R : Str)
    (hh : R = [] ∨ ∃ c R', R = c :: R' ∧ isWS c = false)
    (hl : R = [] ∨ ∃ X c, R = X ++ [c] ∧ isWS c = false) :
    pstrip (' ' :: R) = R := by
  unfold pstrip
  unfold lstrip
  rw [List.dropWhile_cons, if_pos (by rfl)]
  rw [show R.dropWhile isWS = R from dropWhile_eq_self_of_head isWS R hh]
  exact rstrip_eq_self R hl

theorem searchTok_append (mk : Char) (shape : Str → Bool) (n : Nat) :
    ∀ (X R : Str), mk ∉ X →
    searchTok mk shape n (X ++ R) = searchTok mk shape n R := by
  intro X
  induction X with
  | nil => intro R _; rfl
  | cons c X' ih =>
    intro R hX
    have hc : ¬c = mk := fun h => hX (h ▸ List.mem_cons_self c X')
    rw [List.cons_append]
    conv_lhs => rw [searchTok]
    rw [if_neg hc]
    exact ih R (fun hm => hX (List.mem_cons_of_mem _ hm))

theorem searchTok_hit (mk : Char) (shape : Str → Bool) (n : Nat) (dd Y : Str)
    (hsh : shape dd = true) (hlen : dd.length = n)
    (hhd : ∃ c dd', dd = c :: dd' ∧ isWS c = false) :
    searchTok mk shape n (mk :: ' ' :: (dd ++ Y)) = some (mk :: ' ' :: dd, dd) := by
  obtain ⟨c, dd', hdd, hc⟩ := hhd
  have hdrop : ((' ' :: (dd ++ Y)).dropWhile isWS) = dd ++ Y := by
    rw [List.dropWhile_cons, if_pos (by rfl)]
    apply dropWhile_eq_self_of_head
    right
    exact ⟨c, dd' ++ Y, by rw [hdd]; simp, hc⟩
  have htake : ((' ' :: (dd ++ Y)).takeWhile isWS) = [' '] := by
    rw [List.takeWhile_cons, if_pos (by rfl)]
    congr 1
    rw [hdd]
    simp only [List.cons_append, List.takeWhile_cons]
    rw [if_neg (by simp [hc])]
  unfold searchTok
  rw [if_pos rfl]
  simp only [hdrop, htake]
  rw [← hlen, List.take_left]
  rw [if_pos hsh]
  simp

theorem isPrefixOf_cons_neg (h : Char) (tl : Str) (c : Char) (cs : Str) (hne : c ≠ h) :
    (h :: tl).isPrefixOf (c :: cs) = false := by
  simp only [List.isPrefixOf_cons₂, Bool.and_eq_false_iff]
  left
  simp only [beq_eq_false_iff_ne, ne_eq]
  exact fun heq => hne heq.symm

theorem removeAll_skip (h : Char) (tl : Str) : ∀ (X s : Str), h ∉ X →
    removeAll (h :: tl) (X ++ s) = X ++ removeAll (h :: tl) s := by
  intro X
  induction X with
  | nil => intro s _; rfl
  | cons c X' ih =>
    intro s hX
    have hc : c ≠ h := fun hh => hX (hh ▸ List.mem_cons_self c X')
    rw [List.cons_append]
    rw [removeAll_cons_neg _ _ _ (by
      rintro ⟨_, hpre⟩
      rw [isPrefixOf_cons_neg h tl c _ hc] at hpre
      exact absurd hpre (by simp))]
    rw [ih s (fun hm => hX (List.mem_cons_of_mem _ hm))]
    simp

theorem removeAll_of_not_mem (h : Char) (tl s : Str) (hmem : h ∉ s) :
    removeAll (h :: tl) s = s := by
  have h2 := removeAll_skip h tl s [] hmem
  simpa [removeAll_nil] using h2

theorem removeAll_head_match (h : Char) (tl rest : Str) :
    removeAll (h :: tl) ((h :: tl) ++ rest) = removeAll (h :: tl) rest := by
  rw [List.cons_append]
  rw [removeAll_cons_pos _ _ _ ⟨by simp, by
    rw [← List.cons_append]
    exact List.isPrefixOf_iff_prefix.mpr ⟨rest, rfl⟩⟩]
  congr 1
  rw [← List.cons_append]
  exact List.drop_left (h :: tl) rest

theorem removeAll_entry (h : Char) (tl : Str) (hh : h ≠ ' ') :
    ∀ (A B : List Str), (∀ e ∈ A, h ∉ e) → (∀ e ∈ B, h ∉ e) →
    removeAll (h :: tl) (joinSpace (A ++ (h :: tl) :: B)) = joinSpace (A ++ [] :: B) := by
  intro A
  induction A with
  | nil =>
    intro B _ hB
    cases B with
    | nil =>
      simp only [List.nil_append, joinSpace_singleton]
      have hm := removeAll_head_match h tl []
      simp only [List.append_nil] at hm
      rw [hm]
      rfl
    | cons b B' =>
      rw [List.nil_append, joinSpace_cons _ (b :: B') (by simp),
        removeAll_head_match]
      rw [removeAll_of_not_mem h tl _ (by
        intro hm
        rcases List.mem_cons.mp hm with hm | hm
        · exact hh hm
        · rcases mem_joinSpace h (b :: B') hm with hsp | ⟨e, he, hce⟩
          · exact hh hsp
          · exact hB e he hce)]
      rw [List.nil_append, joinSpace_cons _ (b :: B') (by simp), List.nil_append]
  | cons e A' ih =>
    intro B hA hB
    have he : h ∉ e := hA e (List.mem_cons_self e A')
    have hA' : ∀ x ∈ A', h ∉ x := fun x hx => hA x (List.mem_cons_of_mem _ hx)
    rw [List.cons_append, joinSpace_cons e (A' ++ (h :: tl) :: B) (by simp)]
    rw [show e ++ ' ' :: joinSpace (A' ++ (h :: tl) :: B) =
      (e ++ [' ']) ++ joinSpace (A' ++ (h :: tl) :: B) by simp]
    rw [removeAll_skip h tl (e ++ [' ']) _ (by
      intro hm
      rcases List.mem_append.mp hm with hm | hm
      · exact he hm
      · simp at hm
        exact hh hm)]
    rw [ih B hA' hB]
    rw [List.cons_append, joinSpace_cons e (A' ++ [] :: B) (by simp)]
    simp

theorem takeWhile_all (p : Char → Bool) : ∀ (a : Str), (∀ x ∈ a, p x = true) →
    a.takeWhile p = a := by
  intro a
  induction a with
  | nil => intro _; rfl
  | cons c a' ih =>
    intro h
    rw [List.takeWhile_cons, if_pos (h c (List.mem_cons_self c a'))]
    rw [ih (fun x hx => h x (List.mem_cons_of_mem _ hx))]

theorem dropWhile_all (p : Char → Bool) : ∀ (a : Str), (∀ x ∈ a, p x = true) →
    a.dropWhile p = [] := by
  intro a
  induction a with
  | nil => intro _; rfl
  | cons c a' ih =>
    intro h
    rw [List.dropWhile_cons, if_pos (h c (List.mem_cons_self c a'))]
    exact ih (fun x hx => h x (List.mem_cons_of_mem _ hx))

theorem takeWhile_append_all (p : Char → Bool) : ∀ (a b : Str), (∀ x ∈ a, p x = true) →
    (a ++ b).takeWhile p = a ++ b.takeWhile p := by
  intro a
  induction a with
  | nil => intro b _; rfl
  | cons c a' ih =>
    intro b h
    rw [List.cons_append, List.takeWhile_cons, if_pos (h c (List.mem_cons_self c a'))]
    rw [ih b (fun x hx => h x (List.mem_cons_of_mem _ hx))]
    rfl

theorem takeWhile_append_fail (p : Char → Bool) : ∀ (a b : Str), (∃ x ∈ a, p x = false) →
    (a ++ b).takeWhile p = a.takeWhile p ∧ (a ++ b).dropWhile p = a.dropWhile p ++ b := by
  intro a
  induction a with
  | nil =>
    intro b h
    obtain ⟨x, hx, _⟩ := h
    simp at hx
  | cons c a' ih =>
    intro b h
    by_cases hc : p c = true
    · have hw : ∃ x ∈ a', p x = false := by
        obtain ⟨x, hx, hpx⟩ := h
        rcases List.mem_cons.mp hx with hx | hx
        · rw [hx] at hpx; rw [hc] at hpx; cases hpx
        · exact ⟨x, hx, hpx⟩
      obtain ⟨h1, h2⟩ := ih b hw
      constructor
      · rw [List.cons_append, List.takeWhile_cons, if_pos hc, h1,
          List.takeWhile_cons, if_pos hc]
      · rw [List.cons_append, List.dropWhile_cons, if_pos hc, h2,
          List.dropWhile_cons, if_pos hc]
    · constructor
      · rw [List.cons_append, List.takeWhile_cons, if_neg hc, List.takeWhile_cons,
          if_neg hc]
      · rw [List.cons_append, List.dropWhile_cons, if_neg hc, List.dropWhile_cons,
          if_neg hc]
        rfl

/-- Does an entry start with `#` (i.e. is it a rendered tag)? -/
def hashEntry (e : Str) : Bool :=
  match e with
  | c :: _ => c = '#'
  | [] => false

/-- An entry after tag removal. -/
def detag (e : Str) : Str := if hashEntry e then [] else e

/-- A whitespace-free entry that is either hash-free or a rendered tag. -/
def entryOK (e : Str) : Prop :=
  (∀ c ∈ e, isWS c = false) ∧ ('#' ∉ e ∨ ∃ g, e = '#' :: g ∧ g ≠ [])

theorem hashEntry_false (e : Str) (h : '#' ∉ e) : hashEntry e = false := by
  cases e with
  | nil => rfl
  | cons c r =>
    have : ¬c = '#' := fun hc => h (hc ▸ List.mem_cons_self c r)
    simp [hashEntry, this]

theorem tagScan_append (X : Str) (hX : '#' ∉ X) : ∀ (s : Str),
    tagScan (X ++ s) = ((tagScan s).1, X ++ (tagScan s).2) := by
  induction X with
  | nil => intro s; rfl
  | cons c X' ih =>
    intro s
    have hc : ¬c = '#' := fun h => hX (h ▸ List.mem_cons_self c X')
    have hX' : '#' ∉ X' := fun h => hX (List.mem_cons_of_mem _ h)
    rw [List.cons_append, tagScan_cons_other c _ hc, ih hX' s]
    simp

theorem tagScan_join : ∀ (E : List Str), (∀ e ∈ E, entryOK e) →
    tagScan (joinSpace E) = (E.filter hashEntry, joinSpace (E.map detag)) := by
  intro E
  induction E with
  | nil => intro _; rfl
  | cons e E' ih =>
    intro hE
    obtain ⟨hws, hkind⟩ := hE e (List.mem_cons_self e E')
    have hE' : ∀ x ∈ E', entryOK x := fun x hx => hE x (List.mem_cons_of_mem _ hx)
    have ihE := ih hE'
    rcases hkind with hfree | ⟨g, hg, hgne⟩
    · have hhe : hashEntry e = false := hashEntry_false e hfree
      have hde : detag e = e := by simp [detag, hhe]
      cases E' with
      | nil =>
        rw [joinSpace_singleton]
        have h0 := tagScan_append e hfree []
        rw [List.append_nil] at h0
        rw [h0]
        rw [show tagScan [] = (([] : List Str), ([] : Str)) from rfl]
        simp [List.filter_cons, hhe, hde, joinSpace_singleton]
      | cons x xs =>
        rw [joinSpace_cons e (x :: xs) (by simp)]
        have hX : '#' ∉ e ++ [' '] := by
          intro hm
          rcases List.mem_append.mp hm with hm | hm
          · exact hfree hm
          · simp at hm
        rw [show e ++ ' ' :: joinSpace (x :: xs) = (e ++ [' ']) ++ joinSpace (x :: xs)
          by simp]
        rw [tagScan_append (e ++ [' ']) hX (joinSpace (x :: xs)), ihE]
        conv_rhs => rw [List.filter_cons]
        rw [hhe]
        simp only [Bool.false_eq_true, if_false, List.map_cons, hde]
        rw [joinSpace_cons e (detag x :: List.map detag xs) (by simp)]
        simp
    · subst hg
      have hgws : ∀ c ∈ g, isWS c = false :=
        fun c hc => hws c (List.mem_cons_of_mem _ hc)
      have hhe : hashEntry ('#' :: g) = true := by simp [hashEntry]
      have hde : detag ('#' :: g) = [] := by simp [detag, hhe]
      cases E' with
      | nil =>
        rw [joinSpace_singleton]
        rw [tagScan_cons_hash_hit g (by
          rw [takeWhile_all _ g (by intro x hx; simp [hgws x hx])]
          exact hgne)]
        rw [takeWhile_all _ g (by intro x hx; simp [hgws x hx]),
          dropWhile_all _ g (by intro x hx; simp [hgws x hx])]
        rw [show tagScan [] = (([] : List Str), ([] : Str)) from rfl]
        conv_rhs => rw [List.filter_cons]
        rw [hhe]
        simp [hde, joinSpace_singleton]
      | cons x xs =>
        rw [joinSpace_cons _ (x :: xs) (by simp), List.cons_append]
        have htw : (g ++ ' ' :: joinSpace (x :: xs)).takeWhile (fun c => !isWS c) = g := by
          rw [takeWhile_append_all _ g _ (by intro c hc; simp [hgws c hc])]
          rw [List.takeWhile_cons, if_neg (by decide)]
          simp
        have hdw : (g ++ ' ' :: joinSpace (x :: xs)).dropWhile (fun c => !isWS c) =
            ' ' :: joinSpace (x :: xs) := by
          rw [dropWhile_append_all _ g _ (by intro c hc; simp [hgws c hc])]
          rw [List.dropWhile_cons, if_neg (by decide)]
        rw [tagScan_cons_hash_hit _ (by rw [htw]; exact hgne)]
        rw [htw, hdw]
        rw [tagScan_cons_other ' ' _ (by decide), ihE]
        conv_rhs => rw [List.filter_cons]
        rw [hhe]
        simp only [if_true, List.map_cons, hde]
        rw [joinSpace_cons [] (detag x :: List.map detag xs) (by simp)]
        rfl

theorem wsplit_all_ws : ∀ (W : Str), (∀ c ∈ W, isWS c = true) → wsplit W = [] := by
  intro W
  induction W with
  | nil => intro _; rfl
  | cons c W' ih =>
    intro h
    rw [wsplit_cons_ws c W' (h c (List.mem_cons_self c W'))]
    exact ih (fun x hx => h x (List.mem_cons_of_mem _ hx))

theorem wsplit_append_ws (W : Str) (hW : ∀ c ∈ W, isWS c = true) :
    ∀ (n : Nat) (t : Str), t.length ≤ n → wsplit (t ++ W) = wsplit t := by
  intro n
  induction n with
  | zero =>
    intro t ht
    have : t = [] := List.length_eq_zero.mp (Nat.le_zero.mp ht)
    subst this
    exact wsplit_all_ws W hW
  | succ n ih =>
    intro t ht
    cases t with
    | nil => exact wsplit_all_ws W hW
    | cons c t' =>
      by_cases hc : isWS c = true
      · rw [List.cons_append, wsplit_cons_ws c _ hc, wsplit_cons_ws c _ hc]
        exact ih t' (by simp at ht; omega)
      · rw [List.cons_append, wsplit_cons_nws c _ hc, wsplit_cons_nws c _ hc]
        by_cases hall : ∀ x ∈ t', isWS x = false
        · have h1 : (t' ++ W).takeWhile (fun x => !isWS x) = t' := by
            rw [takeWhile_append_all _ t' W (by intro x hx; simp [hall x hx])]
            have : W.takeWhile (fun x => !isWS x) = [] := by
              cases W with
              | nil => rfl
              | cons w ws =>
                rw [List.takeWhile_cons,
                  if_neg (by simp [hW w (List.mem_cons_self w ws)])]
            rw [this, List.append_nil]
          have h2 : (t' ++ W).dropWhile (fun x => !isWS x) = W := by
            rw [dropWhile_append_all _ t' W (by intro x hx; simp [hall x hx])]
            cases W with
            | nil => rfl
            | cons w ws =>
              rw [List.dropWhile_cons,
                if_neg (by simp [hW w (List.mem_cons_self w ws)])]
          rw [h1, h2]
          rw [takeWhile_all _ t' (by intro x hx; simp [hall x hx]),
            dropWhile_all _ t' (by intro x hx; simp [hall x hx])]
          rw [wsplit_all_ws W hW]
          rfl
        · push_neg at hall
          obtain ⟨x, hx, hxw⟩ := hall
          have hf : ∃ y ∈ t', (fun x => !isWS x) y = false := by
            refine ⟨x, hx, ?_⟩
            simp only [Bool.not_eq_false']
            exact Bool.of_not_eq_false hxw
          obtain ⟨h1, h2⟩ := takeWhile_append_fail _ t' W hf
          rw [h1, h2]
          rw [ih (t'.dropWhile (fun x => !isWS x))
            (by have := dropWhile_len_le (fun x => !isWS x) t'; simp at ht; omega)]

theorem wsplit_lstrip (s : Str) : wsplit (lstrip s) = wsplit s := by
  induction s with
  | nil => rfl
  | cons c s' ih =>
    by_cases hc : isWS c = true
    · rw [show lstrip (c :: s') = lstrip s' by simp [lstrip, List.dropWhile_cons, hc]]
      rw [ih, wsplit_cons_ws c s' hc]
    · rw [show lstrip (c :: s') = c :: s' by
        simp only [lstrip, List.dropWhile_cons]
        rw [if_neg hc]]

theorem wsplit_rstrip (s : Str) : wsplit (rstrip s) = wsplit s := by
  have hdecomp : s = rstrip s ++ (s.reverse.takeWhile isWS).reverse := by
    have h := List.takeWhile_append_dropWhile (p := isWS) (l := s.reverse)
    have h2 : (s.reverse).reverse =
        ((s.reverse.takeWhile isWS) ++ (s.reverse.dropWhile isWS)).reverse := by rw [h]
    rw [List.reverse_reverse, List.reverse_append] at h2
    exact h2
  conv_rhs => rw [hdecomp]
  rw [wsplit_append_ws (s.reverse.takeWhile isWS).reverse
    (by
      intro c hc
      rw [List.mem_reverse] at hc
      exact List.mem_takeWhile_imp hc)
    (rstrip s).length (rstrip s) (Nat.le_refl _)]

theorem wsplit_pstrip (s : Str) : wsplit (pstrip s) = wsplit s := by
  unfold pstrip
  rw [wsplit_rstrip, wsplit_lstrip]

theorem wsplit_join : ∀ (E : List Str), (∀ e ∈ E, ∀ c ∈ e, isWS c = false) →
    wsplit (joinSpace E) = E.filter (fun e => !e.isEmpty) := by
  intro E
  induction E with
  | nil => intro _; rfl
  | cons e E' ih =>
    intro hE
    have he := hE e (List.mem_cons_self e E')
    have hE' : ∀ x ∈ E', ∀ c ∈ x, isWS c = false :=
      fun x hx => hE x (List.mem_cons_of_mem _ hx)
    cases E' with
    | nil =>
      rw [joinSpace_singleton]
      cases e with
      | nil => rfl
      | cons c w =>
        rw [wsplit_cons_nws c w (by simp [he c (List.mem_cons_self c w)])]
        rw [takeWhile_all _ w (by
          intro x hx
          simp [he x (List.mem_cons_of_mem _ hx)])]
        rw [dropWhile_all _ w (by
          intro x hx
          simp [he x (List.mem_cons_of_mem _ hx)])]
        rfl
    | cons x xs =>
      rw [joinSpace_cons e (x :: xs) (by simp)]
      cases e with
      | nil =>
        rw [List.nil_append, wsplit_cons_ws ' ' _ (by decide), ih hE']
        rfl
      | cons c w =>
        rw [List.cons_append, wsplit_cons_nws c _ (by simp [he c (List.mem_cons_self c w)])]
        have h1 : (w ++ ' ' :: joinSpace (x :: xs)).takeWhile (fun y => !isWS y) = w := by
          rw [takeWhile_append_all _ w _ (by
            intro y hy
            simp [he y (List.mem_cons_of_mem _ hy)])]
          rw [List.takeWhile_cons, if_neg (by decide)]
          simp
        have h2 : (w ++ ' ' :: joinSpace (x :: xs)).dropWhile (fun y => !isWS y) =
            ' ' :: joinSpace (x :: xs) := by
          rw [dropWhile_append_all _ w _ (by
            intro y hy
            simp [he y (List.mem_cons_of_mem _ hy)])]
          rw [List.dropWhile_cons, if_neg (by decide)]
        rw [h1, h2, wsplit_cons_ws ' ' _ (by decide), ih hE']
        rfl

theorem tokStr_head_nws (tk : Tok) (h : tokOK tk) :
    ∃ c R, tokStr tk = c :: R ∧ isWS c = false := by
  cases tk with
  | word w =>
    obtain ⟨hne, hch⟩ := h
    cases w with
    | nil => exact absurd rfl hne
    | cons c R => exact ⟨c, R, rfl, (hch c (List.mem_cons_self c R)).1⟩
  | date d => exact ⟨'📅', ' ' :: d, rfl, by decide⟩
  | time t => exact ⟨'⏰', ' ' :: t, rfl, by decide⟩
  | tag g => exact ⟨'#', g, rfl, by decide⟩

theorem tokStr_last_nws (tk : Tok) (h : tokOK tk) :
    ∃ X c, tokStr tk = X ++ [c] ∧ isWS c = false := by
  cases tk with
  | word w =>
    obtain ⟨hne, hch⟩ := h
    refine ⟨w.dropLast, w.getLast hne, (List.dropLast_append_getLast hne).symm,
      (hch _ (List.getLast_mem hne)).1⟩
  | date d =>
    have hne : d ≠ [] := by
      intro hc
      rw [hc] at h
      cases h
    refine ⟨'📅' :: ' ' :: d.dropLast, d.getLast hne, ?_, ?_⟩
    · simp only [tokStr]
      have hd2 : d = d.dropLast ++ [d.getLast hne] := (List.dropLast_append_getLast hne).symm
      conv_lhs => rw [hd2]
      simp
    · exact (date_chars d h _ (List.getLast_mem hne)).1
  | time t =>
    have hne : t ≠ [] := by
      intro hc
      rw [hc] at h
      cases h
    refine ⟨'⏰' :: ' ' :: t.dropLast, t.getLast hne, ?_, ?_⟩
    · simp only [tokStr]
      have ht2 : t = t.dropLast ++ [t.getLast hne] := (List.dropLast_append_getLast hne).symm
      conv_lhs => rw [ht2]
      simp
    · exact (time_chars t h _ (List.getLast_mem hne)).1
  | tag g =>
    obtain ⟨hne, hch⟩ := h
    refine ⟨'#' :: g.dropLast, g.getLast hne, ?_, (hch _ (List.getLast_mem hne)).1⟩
    simp only [tokStr]
    have hg2 : g = g.dropLast ++ [g.getLast hne] := (List.dropLast_append_getLast hne).symm
    conv_lhs => rw [hg2]
    simp

theorem tokStr_no_date_mark (tk : Tok) (h : tokOK tk) (hnd : Tok.isDate tk = false) :
    '📅' ∉ tokStr tk := by
  cases tk with
  | word w =>
    intro hm
    exact ((h.2 _ hm).2.2.1) rfl
  | date d => cases hnd
  | time t =>
    intro hm
    simp only [tokStr, List.mem_cons] at hm
    rcases hm with hm | hm | hm
    · cases hm
    · cases hm
    · exact ((time_chars t h _ hm).2.2.1).symm rfl
  | tag g =>
    intro hm
    simp only [tokStr, List.mem_cons] at hm
    rcases hm with hm | hm
    · cases hm
    · exact ((h.2 _ hm).2.1) rfl

theorem tokStr_no_time_mark (tk : Tok) (h : tokOK tk) (hnt : Tok.isTime tk = false) :
    '⏰' ∉ tokStr tk := by
  cases tk with
  | word w =>
    intro hm
    exact ((h.2 _ hm).2.2.2.1) rfl
  | time t => cases hnt
  | date d =>
    intro hm
    simp only [tokStr, List.mem_cons] at hm
    rcases hm with hm | hm | hm
    · cases hm
    · cases hm
    · exact ((date_chars d h _ hm).2.2.2).symm rfl
  | tag g =>
    intro hm
    simp only [tokStr, List.mem_cons] at hm
    rcases hm with hm | hm
    · cases hm
    · exact ((h.2 _ hm).2.2) rfl

theorem tokStrD_no_time_mark (tk : Tok) (h : tokOK tk) (hnt : Tok.isTime tk = false) :
    '⏰' ∉ tokStrD tk := by
  cases tk with
  | date d => simp [tokStrD]
  | word w => exact tokStr_no_time_mark (Tok.word w) h hnt
  | time t => cases hnt
  | tag g => exact tokStr_no_time_mark (Tok.tag g) h hnt

theorem tokStrDT_entryOK (tk : Tok) (h : tokOK tk) : entryOK (tokStrDT tk) := by
  cases tk with
  | word w =>
    refine ⟨fun c hc => (h.2 c hc).1, Or.inl ?_⟩
    intro hm
    exact ((h.2 _ hm).2.1) rfl
  | date d => exact ⟨by simp [tokStrDT], Or.inl (by simp [tokStrDT])⟩
  | time t => exact ⟨by simp [tokStrDT], Or.inl (by simp [tokStrDT])⟩
  | tag g =>
    refine ⟨?_, Or.inr ⟨g, rfl, h.1⟩⟩
    intro c hc
    simp only [tokStrDT, List.mem_cons] at hc
    rcases hc with hc | hc
    · rw [hc]; rfl
    · exact (h.2 c hc).1

theorem filter_eq_singleton (p : Tok → Bool) : ∀ (ts : List Tok) (x : Tok),
    ts.filter p = [x] →
    ∃ A B, ts = A ++ x :: B ∧ (∀ y ∈ A, p y = false) ∧ (∀ y ∈ B, p y = false) := by
  intro ts
  induction ts with
  | nil => intro x h; simp at h
  | cons tk ts' ih =>
    intro x h
    rw [List.filter_cons] at h
    by_cases hp : p tk = true
    · rw [if_pos hp] at h
      rw [List.cons.injEq] at h
      obtain ⟨h1, h2⟩ := h
      subst h1
      refine ⟨[], ts', rfl, by simp, ?_⟩
      intro y hy
      have := List.filter_eq_nil_iff.mp h2 y hy
      simp only [Bool.not_eq_true] at this
      exact this
    · rw [if_neg hp] at h
      obtain ⟨A, B, hAB, hA, hB⟩ := ih x h
      refine ⟨tk :: A, B, by rw [hAB]; rfl, ?_, hB⟩
      intro y hy
      rcases List.mem_cons.mp hy with hy | hy
      · subst hy
        simp only [Bool.not_eq_true] at hp
        exact hp
      · exact hA y hy

theorem renderToks_head (ts : List Tok) (hne : ts ≠ []) (hok : ∀ x ∈ ts, tokOK x) :
    ∃ c R, renderToks ts = c :: R ∧ isWS c = false := by
  cases ts with
  | nil => exact absurd rfl hne
  | cons tk ts' =>
    obtain ⟨c, R, hR, hc⟩ := tokStr_head_nws tk (hok tk (List.mem_cons_self tk ts'))
    cases ts' with
    | nil =>
      refine ⟨c, R, ?_, hc⟩
      unfold renderToks
      rw [List.map_cons, List.map_nil, joinSpace_singleton, hR]
    | cons y ys =>
      refine ⟨c, R ++ ' ' :: joinSpace ((y :: ys).map tokStr), ?_, hc⟩
      unfold renderToks
      rw [List.map_cons, joinSpace_cons _ _ (by simp), hR]
      rfl

theorem renderToks_last : ∀ (ts : List Tok), ts ≠ [] → (∀ x ∈ ts, tokOK x) →
    ∃ X c, renderToks ts = X ++ [c] ∧ isWS c = false := by
  intro ts
  induction ts with
  | nil => intro h _; exact absurd rfl h
  | cons tk ts' ih =>
    intro _ hok
    cases ts' with
    | nil =>
      obtain ⟨X, c, hX, hc⟩ := tokStr_last_nws tk (hok tk (List.mem_cons_self tk []))
      refine ⟨X, c, ?_, hc⟩
      unfold renderToks
      rw [List.map_cons, List.map_nil, joinSpace_singleton, hX]
    | cons y ys =>
      obtain ⟨X, c, hX, hc⟩ := ih (by simp) (fun x hx => hok x (List.mem_cons_of_mem _ hx))
      refine ⟨tokStr tk ++ ' ' :: X, c, ?_, hc⟩
      unfold renderToks
      rw [List.map_cons, joinSpace_cons _ _ (by simp)]
      unfold renderToks at hX
      rw [hX]
      simp

theorem filter_hash_tokStrDT : ∀ (ts : List Tok), (∀ tk ∈ ts, tokOK tk) →
    (ts.map tokStrDT).filter hashEntry = ts.filterMap tagOf := by
  intro ts
  induction ts with
  | nil => intro _; rfl
  | cons tk ts' ih =>
    intro hok
    have h1 := hok tk (List.mem_cons_self tk ts')
    have h2 : ∀ x ∈ ts', tokOK x := fun x hx => hok x (List.mem_cons_of_mem _ hx)
    rw [List.map_cons, List.filter_cons, List.filterMap_cons]
    cases tk with
    | word w =>
      have : hashEntry (tokStrDT (Tok.word w)) = false := by
        apply hashEntry_false
        intro hm
        exact ((h1.2 _ hm).2.1) rfl
      rw [this]
      simp only [Bool.false_eq_true, if_false, tagOf]
      exact ih h2
    | date d =>
      rw [show hashEntry (tokStrDT (Tok.date d)) = false from rfl]
      simp only [Bool.false_eq_true, if_false, tagOf]
      exact ih h2
    | time t =>
      rw [show hashEntry (tokStrDT (Tok.time t)) = false from rfl]
      simp only [Bool.false_eq_true, if_false, tagOf]
      exact ih h2
    | tag g =>
      rw [show hashEntry (tokStrDT (Tok.tag g)) = true from rfl]
      simp only [if_true, tagOf]
      rw [ih h2]
      rfl

theorem detag_tokStrDT (tk : Tok) (h : tokOK tk) : detag (tokStrDT tk) = tokStrW tk := by
  cases tk with
  | word w =>
    have hf : hashEntry w = false :=
      hashEntry_false w (fun hm => ((h.2 _ hm).2.1) rfl)
    simp [detag, tokStrDT, tokStrW, hf]
  | date d => rfl
  | time t => rfl
  | tag g => rfl

theorem filter_nonempty_tokStrW : ∀ (ts : List Tok), (∀ tk ∈ ts, tokOK tk) →
    (ts.map tokStrW).filter (fun e => !e.isEmpty) = ts.filterMap wordOf := by
  intro ts
  induction ts with
  | nil => intro _; rfl
  | cons tk ts' ih =>
    intro hok
    have h1 := hok tk (List.mem_cons_self tk ts')
    have h2 : ∀ x ∈ ts', tokOK x := fun x hx => hok x (List.mem_cons_of_mem _ hx)
    rw [List.map_cons, List.filter_cons, List.filterMap_cons]
    cases tk with
    | word w =>
      have hne : w ≠ [] := h1.1
      have : (!(tokStrW (Tok.word w)).isEmpty) = true := by
        simp only [tokStrW, Bool.not_eq_true']
        cases w with
        | nil => exact absurd rfl hne
        | cons c cs => rfl
      rw [this]
      simp only [if_true, wordOf]
      rw [ih h2]
      rfl
    | date d => exact ih h2
    | time t => exact ih h2
    | tag g => exact ih h2

theorem tokStr_eq_tokStrD (x : Tok) (h : Tok.isDate x = false) : tokStr x = tokStrD x := by
  cases x with
  | date d => cases h
  | word w => rfl
  | time t => rfl
  | tag g => rfl

theorem tokStrD_eq_tokStrDT (x : Tok) (h : Tok.isTime x = false) :
    tokStrD x = tokStrDT x := by
  cases x with
  | time t => cases h
  | word w => rfl
  | date d => rfl
  | tag g => rfl

instance (w : Str) : Decidable (wordOK w) := by unfold wordOK; infer_instance

instance (g : Str) : Decidable (tagOK g) := by unfold tagOK; infer_instance

instance (tk : Tok) : Decidable (tokOK tk) := by
  cases tk <;> (unfold tokOK; infer_instance)

/-- C5: parsing a rendered line — marker, then plain words, exactly one
date token, exactly one time token, and tag tokens, space-separated in
any order — extracts the embedded date and time strings exactly, the tag
tokens in order, and a text equal to the words joined by single spaces;
the text contains none of the characters `📅`, `⏰`, `#`, `[`, hence no
date token, time token, tag token, or checklist-marker substring. -/
theorem parse_round_trip (ts : List Tok) (d t : Str)
    (hwf : ∀ tk ∈ ts, tokOK tk)
    (hd : ts.filter Tok.isDate = [Tok.date d])
    (ht : ts.filter Tok.isTime = [Tok.time t]) :
    parse_task_line (renderLine ts) =
      some ⟨joinSpace (ts.filterMap wordOf), some d, some t, ts.filterMap tagOf⟩ ∧
    ∀ c ∈ joinSpace (ts.filterMap wordOf),
      c ≠ '📅' ∧ c ≠ '⏰' ∧ c ≠ '#' ∧ c ≠ '[' := by
  have hts_ne : ts ≠ [] := by
    intro hc
    rw [hc] at hd
    simp at hd
  obtain ⟨A, B, hsplitD, hAD, hBD⟩ := filter_eq_singleton Tok.isDate ts (Tok.date d) hd
  obtain ⟨A', B', hsplitT, hAT, hBT⟩ := filter_eq_singleton Tok.isTime ts (Tok.time t) ht
  have hdok : dateShapeB d = true := by
    have hmem : Tok.date d ∈ ts := by rw [hsplitD]; simp
    exact hwf _ hmem
  have htok : timeShapeB t = true := by
    have hmem : Tok.time t ∈ ts := by rw [hsplitT]; simp
    exact hwf _ hmem
  have hwfA : ∀ x ∈ A, tokOK x := fun x hx => hwf x (by rw [hsplitD]; simp [hx])
  have hwfB : ∀ x ∈ B, tokOK x := fun x hx => hwf x (by rw [hsplitD]; simp [hx])
  have hwfA' : ∀ x ∈ A', tokOK x := fun x hx => hwf x (by rw [hsplitT]; simp [hx])
  have hwfB' : ∀ x ∈ B', tokOK x := fun x hx => hwf x (by rw [hsplitT]; simp [hx])
  have h1 : markerRest (renderLine ts) = some (renderToks ts) := by
    unfold renderLine
    rw [markerRest_canonical]
    congr 1
    obtain ⟨c, R, hR, hc⟩ := renderToks_head ts hts_ne hwf
    rw [hR]
    exact dropWhile_eq_self_of_head isWS _ (Or.inr ⟨c, R, rfl, hc⟩)
  have h2 : pstrip (' ' :: renderToks ts) = renderToks ts := by
    obtain ⟨c, R, hR, hc⟩ := renderToks_head ts hts_ne hwf
    obtain ⟨X, cl, hX, hcl⟩ := renderToks_last ts hts_ne hwf
    exact pstrip_space _ (Or.inr ⟨c, R, hR, hc⟩) (Or.inr ⟨X, cl, hX, hcl⟩)
  have hmapD : ts.map tokStr = A.map tokStr ++ ('📅' :: ' ' :: d) :: B.map tokStr := by
    rw [hsplitD, List.map_append, List.map_cons]
    rfl
  have hpreD : '📅' ∉
      (if A.map tokStr = [] then ([] : Str) else joinSpace (A.map tokStr) ++ [' ']) := by
    by_cases hA0 : A.map tokStr = []
    · simp [hA0]
    · rw [if_neg hA0]
      intro hm
      rcases List.mem_append.mp hm with hm | hm
      · rcases mem_joinSpace _ _ hm with hsp | ⟨e, he, hce⟩
        · exact absurd hsp (by decide)
        · obtain ⟨a, ha, hae⟩ := List.mem_map.mp he
          rw [← hae] at hce
          exact tokStr_no_date_mark a (hwfA a ha) (hAD a ha) hce
      · simp at hm
  have h3 : dateSearch (renderToks ts) = some ('📅' :: ' ' :: d, d) := by
    unfold renderToks
    rw [hmapD, joinSpace_split]
    unfold dateSearch
    rw [List.append_assoc]
    rw [searchTok_append '📅' dateShapeB 10 _ _ hpreD]
    rw [show ('📅' :: ' ' :: d) ++
      (if B.map tokStr = [] then ([] : Str) else ' ' :: joinSpace (B.map tokStr)) =
      '📅' :: ' ' :: (d ++
        (if B.map tokStr = [] then ([] : Str) else ' ' :: joinSpace (B.map tokStr)))
      from rfl]
    exact searchTok_hit '📅' dateShapeB 10 d _ hdok (dateShapeB_elim d hdok).1
      (by
        obtain ⟨c, d', hdd, hc⟩ := (dateShapeB_elim d hdok).2.1
        exact ⟨c, d', hdd, (digit_not_special c hc).1⟩)
  have hmapT0 : ts.map tokStr = A'.map tokStr ++ ('⏰' :: ' ' :: t) :: B'.map tokStr := by
    rw [hsplitT, List.map_append, List.map_cons]
    rfl
  have hpreT : '⏰' ∉
      (if A'.map tokStr = [] then ([] : Str) else joinSpace (A'.map tokStr) ++ [' ']) := by
    by_cases hA0 : A'.map tokStr = []
    · simp [hA0]
    · rw [if_neg hA0]
      intro hm
      rcases List.mem_append.mp hm with hm | hm
      · rcases mem_joinSpace _ _ hm with hsp | ⟨e, he, hce⟩
        · exact absurd hsp (by decide)
        · obtain ⟨a, ha, hae⟩ := List.mem_map.mp he
          rw [← hae] at hce
          exact tokStr_no_time_mark a (hwfA' a ha) (hAT a ha) hce
      · simp at hm
  have h4 : timeSearch (renderToks ts) = some ('⏰' :: ' ' :: t, t) := by
    unfold renderToks
    rw [hmapT0, joinSpace_split]
    unfold timeSearch
    rw [List.append_assoc]
    rw [searchTok_append '⏰' timeShapeB 5 _ _ hpreT]
    rw [show ('⏰' :: ' ' :: t) ++
      (if B'.map tokStr = [] then ([] : Str) else ' ' :: joinSpace (B'.map tokStr)) =
      '⏰' :: ' ' :: (t ++
        (if B'.map tokStr = [] then ([] : Str) else ' ' :: joinSpace (B'.map tokStr)))
      from rfl]
    exact searchTok_hit '⏰' timeShapeB 5 t _ htok (timeShapeB_elim t htok).1
      (by
        obtain ⟨c, t', htt, hc⟩ := (timeShapeB_elim t htok).2.1
        exact ⟨c, t', htt, (digit_not_special c hc).1⟩)
  have h5 : removeAll ('📅' :: ' ' :: d) (renderToks ts) = joinSpace (ts.map tokStrD) := by
    unfold renderToks
    rw [hmapD]
    rw [removeAll_entry '📅' (' ' :: d) (by decide) (A.map tokStr) (B.map tokStr)
      (by
        intro e he hm
        obtain ⟨a, ha, hae⟩ := List.mem_map.mp he
        rw [← hae] at hm
        exact tokStr_no_date_mark a (hwfA a ha) (hAD a ha) hm)
      (by
        intro e he hm
        obtain ⟨a, ha, hae⟩ := List.mem_map.mp he
        rw [← hae] at hm
        exact tokStr_no_date_mark a (hwfB a ha) (hBD a ha) hm)]
    congr 1
    rw [hsplitD, List.map_append, List.map_cons]
    congr 1
    · exact List.map_congr_left (fun x hx => tokStr_eq_tokStrD x (hAD x hx))
    · congr 1
      exact List.map_congr_left (fun x hx => tokStr_eq_tokStrD x (hBD x hx))
  have hmapT : ts.map tokStrD = A'.map tokStrD ++ ('⏰' :: ' ' :: t) :: B'.map tokStrD := by
    rw [hsplitT, List.map_append, List.map_cons]
    rfl
  have h6 : removeAll ('⏰' :: ' ' :: t) (joinSpace (ts.map tokStrD)) =
      joinSpace (ts.map tokStrDT) := by
    rw [hmapT]
    rw [removeAll_entry '⏰' (' ' :: t) (by decide) (A'.map tokStrD) (B'.map tokStrD)
      (by
        intro e he hm
        obtain ⟨a, ha, hae⟩ := List.mem_map.mp he
        rw [← hae] at hm
        exact tokStrD_no_time_mark a (hwfA' a ha) (hAT a ha) hm)
      (by
        intro e he hm
        obtain ⟨a, ha, hae⟩ := List.mem_map.mp he
        rw [← hae] at hm
        exact tokStrD_no_time_mark a (hwfB' a ha) (hBT a ha) hm)]
    congr 1
    rw [hsplitT, List.map_append, List.map_cons]
    congr 1
    · exact List.map_congr_left (fun x hx => tokStrD_eq_tokStrDT x (hAT x hx))
    · congr 1
      exact List.map_congr_left (fun x hx => tokStrD_eq_tokStrDT x (hBT x hx))
  have h7 : tagScan (joinSpace (ts.map tokStrDT)) =
      (ts.filterMap tagOf, joinSpace (ts.map tokStrW)) := by
    rw [tagScan_join (ts.map tokStrDT) (by
      intro e he
      obtain ⟨a, ha, hae⟩ := List.mem_map.mp he
      rw [← hae]
      exact tokStrDT_entryOK a (hwf a ha))]
    simp only [Prod.mk.injEq]
    refine ⟨filter_hash_tokStrDT ts hwf, ?_⟩
    congr 1
    rw [List.map_map]
    exact List.map_congr_left (fun x hx => detag_tokStrDT x (hwf x hx))
  have h8 : joinSpace (wsplit (pstrip (joinSpace (ts.map tokStrW)))) =
      joinSpace (ts.filterMap wordOf) := by
    rw [wsplit_pstrip]
    rw [wsplit_join (ts.map tokStrW) (by
      intro e he c hc
      obtain ⟨a, ha, hae⟩ := List.mem_map.mp he
      rw [← hae] at hc
      cases a with
      | word w => exact ((hwf _ ha).2 c hc).1
      | date dd => simp [tokStrW] at hc
      | time tt => simp [tokStrW] at hc
      | tag gg => simp [tokStrW] at hc)]
    rw [filter_nonempty_tokStrW ts hwf]
  constructor
  · unfold parse_task_line
    rw [h1]
    simp only [h2, h3, h4, h5, h6, h7, h8, Option.map_some']
  · intro c hc
    rcases mem_joinSpace c _ hc with hsp | ⟨e, he, hce⟩
    · subst hsp
      exact ⟨by decide, by decide, by decide, by decide⟩
    · obtain ⟨a, ha, hae⟩ := List.mem_filterMap.mp he
      cases a with
      | word w =>
        simp only [wordOf, Option.some.injEq] at hae
        subst hae
        obtain ⟨_, h2', h3', h4', h5'⟩ := (hwf _ ha).2 c hce
        exact ⟨h3', h4', h2', h5'⟩
      | date dd => simp [wordOf] at hae
      | time tt => simp [wordOf] at hae
      | tag gg => simp [wordOf] at hae

theorem parse_round_trip_witness :
    (∀ tk ∈ [Tok.word (strL "Pay"), Tok.word (strL "rent"),
        Tok.date (strL "2024-01-01"), Tok.time (strL "09:00"),
        Tok.tag (strL "finance")], tokOK tk) ∧
    ([Tok.word (strL "Pay"), Tok.word (strL "rent"), Tok.date (strL "2024-01-01"),
        Tok.time (strL "09:00"), Tok.tag (strL "finance")].filter Tok.isDate =
      [Tok.date (strL "2024-01-01")]) ∧
    ([Tok.word (strL "Pay"), Tok.word (strL "rent"), Tok.date (strL "2024-01-01"),
        Tok.time (strL "09:00"), Tok.tag (strL "finance")].filter Tok.isTime =
      [Tok.time (strL "09:00")]) ∧
    (parse_task_line (renderLine [Tok.word (strL "Pay"), Tok.word (strL "rent"),
        Tok.date (strL "2024-01-01"), Tok.time (strL "09:00"),
        Tok.tag (strL "finance")]) =
      some ⟨joinSpace ([Tok.word (strL "Pay"), Tok.word (strL "rent"),
          Tok.date (strL "2024-01-01"), Tok.time (strL "09:00"),
          Tok.tag (strL "finance")].filterMap wordOf),
        some (strL "2024-01-01"), some (strL "09:00"),
        [Tok.word (strL "Pay"), Tok.word (strL "rent"), Tok.date (strL "2024-01-01"),
          Tok.time (strL "09:00"), Tok.tag (strL "finance")].filterMap tagOf⟩ ∧
      ∀ c ∈ joinSpace ([Tok.word (strL "Pay"), Tok.word (strL "rent"),
          Tok.date (strL "2024-01-01"), Tok.time (strL "09:00"),
          Tok.tag (strL "finance")].filterMap wordOf),
        c ≠ '📅' ∧ c ≠ '⏰' ∧ c ≠ '#' ∧ c ≠ '[') :=
  ⟨by decide, by decide, by decide,
    parse_round_trip
      [Tok.word (strL "Pay"), Tok.word (strL "rent"), Tok.date (strL "2024-01-01"),
        Tok.time (strL "09:00"), Tok.tag (strL "finance")]
      (strL "2024-01-01") (strL "09:00") (by decide) (by decide) (by decide)⟩

end OTG

